import Mathlib

/-! ArgggParser: a shallow embedding of `lib/ArgParser.h`

The C++ header declares `Arg<ArgType>` (one declared option with its accumulated
values), the type-erased base `ArgBase`, and `ArgParser` (the registry and the
`Parse` state machine).  The embedding below follows the header function by
function and keeps its names.

Conventions of the embedding:

* `std::string` and `std::string_view` contents are `List Char` (`Str`).
* A call that ends in `exit(EXIT_FAILURE)` (or dereferences a null entry) does
  not return to the caller; such calls yield `none` / `Outcome.exited`.
* `std::unordered_map` is an association list whose list order stands for the
  (unspecified) iteration order of the map.
* The objects bound by `StoreValue` / `StoreValues` are caller-owned; their
  current contents are carried inside the `store_func_` field of the spec.
-/

namespace ArgumentParser

/-- Contents of a `std::string` / `std::string_view`. -/
abbrev Str := List Char

/-- Character read `s[i]`; a read at `size()` yields the terminating NUL of the
underlying `std::string` buffer. -/
def charAt (s : Str) (i : Nat) : Char := s.getD i (Char.ofNat 0)

/-- The three shapes `store_func_` can take: the initial lambda of the class
(line 128), the lambda installed by `StoreValue` (line 97) and the lambda
installed by `StoreValues` (line 105).  The captured caller-owned object is kept
with the lambda. -/
inductive StoreFunc (α : Type) where
  | own : StoreFunc α
  | scalar (other_value : α) : StoreFunc α
  | container (other_container : List α) : StoreFunc α

/-- The class template `Arg<ArgType>` (lines 32-131): its data members. -/
structure Arg (α : Type) where
  short_name_ : Char
  long_name_ : Str
  description_ : Str
  is_flag_ : Bool
  is_good_ : Bool
  is_help_ : Bool
  is_positional_ : Bool
  is_multivalue_ : Bool
  is_store_values_ : Bool
  is_default_ : Bool
  min_count_ : Int
  flag : Bool
  values_ : List α
  convert_func_ : Str → Option α
  store_func_ : StoreFunc α

namespace Arg

variable {α : Type}

/-- Constructor `Arg(short_name, long_name, description, flag, help, func)`
(lines 35-36) together with the default member initialisers (lines 117-130). -/
def ctor (short_name : Char) (long_name description : Str) (flag help : Bool)
    (func : Str → Option α) : Arg α :=
  { short_name_ := short_name
    long_name_ := long_name
    description_ := description
    is_flag_ := flag
    is_good_ := false
    is_help_ := help
    is_positional_ := false
    is_multivalue_ := false
    is_store_values_ := false
    is_default_ := false
    min_count_ := 0
    flag := false
    values_ := []
    convert_func_ := func
    store_func_ := StoreFunc.own }

def isFlag (a : Arg α) : Bool := a.is_flag_
def isHelp (a : Arg α) : Bool := a.is_help_
def isPositional (a : Arg α) : Bool := a.is_positional_
def isDefault (a : Arg α) : Bool := a.is_default_
def isMultiValue (a : Arg α) : Bool := a.is_multivalue_
def isEmpty (a : Arg α) : Bool := a.values_.isEmpty
def isGood (a : Arg α) : Bool := a.is_good_

/-- Overload `MultiValue()` (lines 46-49). -/
def MultiValue (a : Arg α) : Arg α := { a with is_multivalue_ := true }

/-- Overload `MultiValue(int value)` (lines 51-55). -/
def MultiValueMin (a : Arg α) (value : Int) : Arg α :=
  { a with is_multivalue_ := true, min_count_ := value }

/-- Builder `Positional()` (lines 57-60). -/
def Positional (a : Arg α) : Arg α := { a with is_positional_ := true }

/-- Call `store_func_(value)`: what the currently installed lambda does. -/
def store (a : Arg α) (value : α) : Arg α :=
  match a.store_func_ with
  | StoreFunc.own => { a with values_ := a.values_ ++ [value] }
  | StoreFunc.scalar _ => { a with store_func_ := StoreFunc.scalar value }
  | StoreFunc.container c =>
      { a with store_func_ := StoreFunc.container (c ++ [value]),
               values_ := a.values_ ++ [value] }

/-- Method `AddValue` (lines 66-76).  `arith` is the integral promotion of the
value type when `std::is_arithmetic_v<ArgType>` holds and `none` otherwise.
The result is `none` when the converter terminates the process. -/
def AddValue (arith : Option (α → Int)) (a : Arg α) (value : Str) : Option (Bool × Arg α) :=
  match a.convert_func_ value with
  | none => none
  | some val =>
      let a1 : Arg α := { a with is_good_ := true }
      match arith with
      | some toInt =>
          if a1.min_count_ ≠ 0 ∧ toInt val < a1.min_count_ then some (false, a1)
          else some (true, a1.store val)
      | none => some (true, a1.store val)

/-- Method `GetValue(int index)` (lines 78-83); `none` is the `exit` path.  The
comparison `values_.size() > index` converts `index` to an unsigned type, so a
negative index never passes it. -/
def GetValue (a : Arg α) (index : Int) : Option α :=
  if 0 ≤ index then a.values_.get? index.toNat else none

/-- Builder `Default(value)` (lines 89-94). -/
def Default (a : Arg α) (value : α) : Arg α :=
  { ({ a with is_default_ := true } : Arg α).store value with is_good_ := true }

/-- Builder `StoreValue(other_value)` (lines 96-102); `other_value` is the current
content of the bound variable. -/
def StoreValue (a : Arg α) (other_value : α) : Arg α :=
  { a with store_func_ := StoreFunc.scalar other_value, is_good_ := true }

/-- Builder `StoreValues(other_container)` (lines 104-110). -/
def StoreValues (a : Arg α) (other_container : List α) : Arg α :=
  { a with store_func_ := StoreFunc.container other_container }

end Arg

/-- Integral promotion of `bool`. -/
def boolToInt (b : Bool) : Int := if b then 1 else 0

/-- The objects a registry owns through `std::unique_ptr<ArgBase>`: an `Arg<int>`,
an `Arg<std::string>` or an `Arg<bool>` (the three instantiations the header
declares builders for). -/
inductive ArgBase where
  | int (a : Arg Int) : ArgBase
  | string (a : Arg Str) : ArgBase
  | bool (a : Arg Bool) : ArgBase

namespace ArgBase

def isFlag : ArgBase → Bool
  | int a => a.isFlag | string a => a.isFlag | bool a => a.isFlag
def isHelp : ArgBase → Bool
  | int a => a.isHelp | string a => a.isHelp | bool a => a.isHelp
def isPositional : ArgBase → Bool
  | int a => a.isPositional | string a => a.isPositional | bool a => a.isPositional
def isDefault : ArgBase → Bool
  | int a => a.isDefault | string a => a.isDefault | bool a => a.isDefault
def isMultiValue : ArgBase → Bool
  | int a => a.isMultiValue | string a => a.isMultiValue | bool a => a.isMultiValue
def isGood : ArgBase → Bool
  | int a => a.isGood | string a => a.isGood | bool a => a.isGood
def isEmpty : ArgBase → Bool
  | int a => a.isEmpty | string a => a.isEmpty | bool a => a.isEmpty

/-- Lift an option of a pair through a constructor of `ArgBase`. -/
def liftResult {α : Type} (f : Arg α → ArgBase) : Option (Bool × Arg α) → Option (Bool × ArgBase)
  | none => none
  | some (b, a) => some (b, f a)

/-- Virtual `AddValue` (line 28), dispatched to the instantiation.  `int` and
`bool` are arithmetic types, `std::string` is not. -/
def AddValue : ArgBase → Str → Option (Bool × ArgBase)
  | int a, value => liftResult int (a.AddValue (some id) value)
  | string a, value => liftResult string (a.AddValue none value)
  | bool a, value => liftResult bool (a.AddValue (some boolToInt) value)

end ArgBase

/-! ## Converters passed by the convenience builders -/

/-- Decimal digit test used by `std::from_chars`. -/
def isDigit (c : Char) : Bool := decide ('0'.toNat ≤ c.toNat ∧ c.toNat ≤ '9'.toNat)

/-- Value of a run of decimal digits. -/
def digitsValue (ds : List Char) : Nat :=
  ds.foldl (fun acc c => acc * 10 + (c.toNat - '0'.toNat)) 0

/-- The converter lambda of `AddIntArgument` (lines 156-163): `std::from_chars`
into an `int` (an optional minus sign, then the longest run of decimal digits;
trailing characters are not inspected), `exit` when `ec` reports an error (no
digits, or a value outside the range of `int`). -/
def convertInt (value : Str) : Option Int :=
  let neg : Bool := charAt value 0 == '-' && !value.isEmpty
  let body : Str := if neg then value.drop 1 else value
  let ds := body.takeWhile isDigit
  if ds.isEmpty then none
  else
    let v : Int := if neg then - (digitsValue ds : Int) else (digitsValue ds : Int)
    if v < -2147483648 ∨ 2147483647 < v then none else some v

/-- The converter lambda of `AddStringArgument` (lines 178-180). -/
def convertString (value : Str) : Option Str := some value

/-- The C string starting at `value.data()`: the characters up to the first NUL. -/
def cstr (value : Str) : Str := value.takeWhile (fun c => c != Char.ofNat 0)

/-- The converter lambda of `AddBoolArgument` (lines 190-192): `strcmp` against
`"true"` and `"1"`. -/
def convertBool (value : Str) : Option Bool :=
  some (decide (cstr value = "true".toList) || decide (cstr value = "1".toList))

/-- The converter lambda of `AddFlag` and `AddHelp` (lines 202-204, 214-216). -/
def convertTrue (_value : Str) : Option Bool := some true

/-! ## The registry `ArgParser` -/

/-- Lookup `m.find(k)` in a map kept as an association list. -/
def mapFind {κ β : Type} [DecidableEq κ] : List (κ × β) → κ → Option β
  | [], _ => none
  | (k', v) :: m, k => if k' = k then some v else mapFind m k

/-- Assignment `m[k] = v`: overwrite the entry of `k` when there is one, insert a
new entry otherwise. -/
def mapAssign {κ β : Type} [DecidableEq κ] : List (κ × β) → κ → β → List (κ × β)
  | [], k, v => [(k, v)]
  | (k', v') :: m, k, v => if k' = k then (k', v) :: m else (k', v') :: mapAssign m k v

/-- The class `ArgParser` (lines 133-422): its data members. -/
structure ArgParser where
  program_name_ : Str
  arguments_ : List (Str × ArgBase)
  arg_names_ : List (Char × Str)
  help_flag_ : Bool

/-- Result of a call that may terminate the process instead of returning. -/
inductive Outcome where
  | returned (verdict : Bool) (p : ArgParser) : Outcome
  | exited : Outcome

/-- Result of the body of the token loop of `Parse`: fall through to the next
iteration (`consumed` counts the following tokens taken by `++i`), leave `Parse`
with a `return`, or terminate the process. -/
inductive Step where
  | next (p : ArgParser) (consumed : Nat) : Step
  | ret (verdict : Bool) (p : ArgParser) : Step
  | exit : Step

/-- Private helper `splitString` (lines 415-421). -/
def splitString (str : Str) (delimeter : Char) : Str × Str :=
  if str.contains delimeter then
    (str.takeWhile (fun c => c != delimeter), (str.dropWhile (fun c => c != delimeter)).drop 1)
  else (str, [])

namespace ArgParser

/-- Constructor `ArgParser(program_name)` (line 135). -/
def ctor (program_name : Str) : ArgParser :=
  { program_name_ := program_name, arguments_ := [], arg_names_ := [], help_flag_ := false }

/-- Write access through a reference into `arguments_` (an `it->second` or an
`arguments_[name]` that was found): the object stored under `name` becomes `a`. -/
def setArg (p : ArgParser) (name : Str) (a : ArgBase) : ArgParser :=
  { p with arguments_ := mapAssign p.arguments_ name a }

/-- Template `AddArgument<T>` (lines 138-153); `wrap` is the upcast of `Arg<T>` to
`ArgBase`.  The alias is registered for whatever `short_name` is passed. -/
def AddArgument {α : Type} (p : ArgParser) (wrap : Arg α → ArgBase) (short_name : Char)
    (long_name description : Str) (flag help : Bool) (convert_func : Str → Option α) :
    ArgParser :=
  { p with
    arguments_ := mapAssign p.arguments_ long_name
      (wrap (Arg.ctor short_name long_name description flag help convert_func))
    arg_names_ := mapAssign p.arg_names_ short_name long_name }

/-- Overload `AddIntArgument(long_name, ...)` (lines 155-164). -/
def AddIntArgument (p : ArgParser) (long_name : Str) (description : Str)
    (flag help : Bool) : ArgParser :=
  p.AddArgument ArgBase.int ' ' long_name description flag help convertInt

/-- Overload `AddIntArgument(short_name, long_name, ...)` (lines 166-175). -/
def AddIntArgumentShort (p : ArgParser) (short_name : Char) (long_name : Str)
    (description : Str) (flag help : Bool) : ArgParser :=
  p.AddArgument ArgBase.int short_name long_name description flag help convertInt

/-- Overload `AddStringArgument(long_name, ...)` (lines 177-181). -/
def AddStringArgument (p : ArgParser) (long_name : Str) (description : Str)
    (flag help : Bool) : ArgParser :=
  p.AddArgument ArgBase.string ' ' long_name description flag help convertString

/-- Overload `AddStringArgument(short_name, long_name, ...)` (lines 183-187). -/
def AddStringArgumentShort (p : ArgParser) (short_name : Char) (long_name : Str)
    (description : Str) (flag help : Bool) : ArgParser :=
  p.AddArgument ArgBase.string short_name long_name description flag help convertString

/-- Overload `AddBoolArgument(long_name, ...)` (lines 189-193). -/
def AddBoolArgument (p : ArgParser) (long_name : Str) (description : Str)
    (flag help : Bool) : ArgParser :=
  p.AddArgument ArgBase.bool ' ' long_name description flag help convertBool

/-- Overload `AddBoolArgument(short_name, long_name, ...)` (lines 195-199). -/
def AddBoolArgumentShort (p : ArgParser) (short_name : Char) (long_name : Str)
    (description : Str) (flag help : Bool) : ArgParser :=
  p.AddArgument ArgBase.bool short_name long_name description flag help convertBool

/-- Overload `AddFlag(short_name, long_name, ...)` (lines 201-205). -/
def AddFlagShort (p : ArgParser) (short_name : Char) (long_name : Str)
    (description : Str) : ArgParser :=
  p.AddArgument ArgBase.bool short_name long_name description true false convertTrue

/-- Overload `AddFlag(long_name, ...)` (lines 207-211). -/
def AddFlag (p : ArgParser) (long_name : Str) (description : Str) : ArgParser :=
  p.AddArgument ArgBase.bool ' ' long_name description true false convertTrue

/-- Builder `AddHelp(short_name, long_name, ...)` (lines 213-217). -/
def AddHelp (p : ArgParser) (short_name : Char) (long_name : Str)
    (description : Str) : ArgParser :=
  p.AddArgument ArgBase.bool short_name long_name description false true convertTrue

/-- Builder calls chained on the `Arg<int>&` returned by a declaration: `f` is
applied to the object stored under `long_name`. -/
def chainInt (p : ArgParser) (long_name : Str) (f : Arg Int → Arg Int) : ArgParser :=
  match mapFind p.arguments_ long_name with
  | some (ArgBase.int a) => p.setArg long_name (ArgBase.int (f a))
  | _ => p

/-- Builder calls chained on the `Arg<std::string>&` returned by a declaration. -/
def chainString (p : ArgParser) (long_name : Str) (f : Arg Str → Arg Str) : ArgParser :=
  match mapFind p.arguments_ long_name with
  | some (ArgBase.string a) => p.setArg long_name (ArgBase.string (f a))
  | _ => p

/-- Builder calls chained on the `Arg<bool>&` returned by a declaration. -/
def chainBool (p : ArgParser) (long_name : Str) (f : Arg Bool → Arg Bool) : ArgParser :=
  match mapFind p.arguments_ long_name with
  | some (ArgBase.bool a) => p.setArg long_name (ArgBase.bool (f a))
  | _ => p

end ArgParser

/-- The `while` loop of lines 251-255 (and 292-294): as long as the spec is
multi-value and the next token exists and does not start with `-`, take it with
`++i` and add it; a rejected value ends `Parse` with `false`.  The result is the
verdict so far, the spec, and the number of tokens taken. -/
def multiLoop (a : ArgBase) : List Str → Option (Bool × ArgBase × Nat)
  | [] => some (true, a, 0)
  | t :: ts =>
      if a.isMultiValue && charAt t 0 != '-' then
        match a.AddValue t with
        | none => none
        | some (false, a') => some (false, a', 1)
        | some (true, a') =>
            match multiLoop a' ts with
            | none => none
            | some (b, a'', n) => some (b, a'', n + 1)
      else some (true, a, 0)

/-- The value branch of lines 246-259 (and 289-298) for a spec that is neither a
flag nor the help trigger: take the next token when it exists and does not start
with `-`, then run the multi-value loop; otherwise the value is missing and the
verdict is `false`. -/
def takeValue (a : ArgBase) : List Str → Option (Bool × ArgBase × Nat)
  | [] => some (false, a, 0)
  | v :: ts =>
      if charAt v 0 != '-' then
        match a.AddValue v with
        | none => none
        | some (false, a') => some (false, a', 1)
        | some (true, a') =>
            match multiLoop a' ts with
            | none => none
            | some (b, a'', n) => some (b, a'', n + 1)
      else some (false, a, 0)

/-- The `while` loop of lines 312-314: as `multiLoop`, but the result of
`AddValue` is not looked at. -/
def multiLoopIgnore (a : ArgBase) : List Str → Option (ArgBase × Nat)
  | [] => some (a, 0)
  | t :: ts =>
      if a.isMultiValue && charAt t 0 != '-' then
        match a.AddValue t with
        | none => none
        | some (_, a') =>
            match multiLoopIgnore a' ts with
            | none => none
            | some (a'', n) => some (a'', n + 1)
      else some (a, 0)

/-- The first entry, in iteration order, whose spec is positional (lines 308-309). -/
def firstPositional : List (Str × ArgBase) → Option (Str × ArgBase)
  | [] => none
  | (name, a) :: m => if a.isPositional then some (name, a) else firstPositional m

/-- Long form, lines 226-264; `arg_name` is the token without its `--`, `rest`
are the tokens after it. -/
def parseLong (p : ArgParser) (arg_name : Str) (rest : List Str) : Step :=
  if arg_name.contains '=' then
    match mapFind p.arguments_ (splitString arg_name '=').1 with
    | some a =>
        match a.AddValue (splitString arg_name '=').2 with
        | none => Step.exit
        | some (false, a') => Step.ret false (p.setArg (splitString arg_name '=').1 a')
        | some (true, a') => Step.next (p.setArg (splitString arg_name '=').1 a') 0
    | none => Step.ret false p
  else
    match mapFind p.arguments_ arg_name with
    | some a =>
        if a.isFlag then
          match a.AddValue "true".toList with
          | none => Step.exit
          | some (_, a') => Step.next (p.setArg arg_name a') 0
        else if a.isHelp then Step.ret true { p with help_flag_ := true }
        else
          match takeValue a rest with
          | none => Step.exit
          | some (false, a', _) => Step.ret false (p.setArg arg_name a')
          | some (true, a', n) => Step.next (p.setArg arg_name a') n
    | none => Step.ret false p

/-- Short form with `=`, lines 266-277.  `name` is a view of the first characters
of `arg_name`, so `name[0]` is the first character of `arg_name` (the `=` itself
when `name` is empty).  An alias whose long name has no entry makes
`arguments_[...]` a null pointer, which is dereferenced. -/
def parseShortEq (p : ArgParser) (arg_name : Str) : Step :=
  match mapFind p.arg_names_ (charAt arg_name 0) with
  | some long_name =>
      match mapFind p.arguments_ long_name with
      | none => Step.exit
      | some a =>
          match a.AddValue (splitString arg_name '=').2 with
          | none => Step.exit
          | some (false, a') => Step.ret false (p.setArg long_name a')
          | some (true, a') => Step.next (p.setArg long_name a') 0
  | none => Step.ret false p

/-- Short chain, the `for` loop of lines 279-303 over the characters after the
`-`.  `rest` are the tokens not yet taken and `k` counts those already taken by
this chain. -/
def shortChain (p : ArgParser) : List Char → List Str → Nat → Step
  | [], _, k => Step.next p k
  | short_name :: cs, rest, k =>
      match mapFind p.arg_names_ short_name with
      | some long_name =>
          match mapFind p.arguments_ long_name with
          | none => Step.exit
          | some a =>
              if a.isFlag then
                match a.AddValue "true".toList with
                | none => Step.exit
                | some (_, a') => shortChain (p.setArg long_name a') cs rest k
              else if a.isHelp then Step.ret true { p with help_flag_ := true }
              else
                match takeValue a rest with
                | none => Step.exit
                | some (false, a', _) => Step.ret false (p.setArg long_name a')
                | some (true, a', n) =>
                    shortChain (p.setArg long_name a') cs (rest.drop n) (k + n)
      | none => Step.ret false p

/-- Positional branch, lines 306-322. -/
def parsePositional (p : ArgParser) (arg : Str) (rest : List Str) : Step :=
  match firstPositional p.arguments_ with
  | none => Step.ret false p
  | some (name, a) =>
      match a.AddValue arg with
      | none => Step.exit
      | some (_, a') =>
          match multiLoopIgnore a' rest with
          | none => Step.exit
          | some (a'', n) => Step.next (p.setArg name a'') n

/-- Body of the token loop (lines 222-322) for the token `arg = argv[i]`, with
`rest` the tokens after it. -/
def parseToken (p : ArgParser) (arg : Str) (rest : List Str) : Step :=
  if charAt arg 0 == '-' then
    if charAt arg 1 == '-' then parseLong p (arg.drop 2) rest
    else if (arg.drop 1).contains '=' then parseShortEq p (arg.drop 1)
    else shortChain p (arg.drop 1) rest 0
  else parsePositional p arg rest

/-- The token loop `for (int i = 1; i < argc; ++i)` (line 221) over the tokens
from `argv[i]` on.  `skip` is the number of leading tokens the previous body has
already taken with `++i`. -/
def parseLoop (p : ArgParser) : Nat → List Str → Step
  | skip, [] => Step.next p skip
  | skip + 1, _ :: rest => parseLoop p skip rest
  | 0, arg :: rest =>
      match parseToken p arg rest with
      | Step.next p' n => parseLoop p' n rest
      | Step.ret b p' => Step.ret b p'
      | Step.exit => Step.exit

/-- The test of line 325: the spec is reported missing. -/
def isMissing (a : ArgBase) : Bool :=
  !a.isGood && !a.isHelp && a.isEmpty && !a.isFlag

/-- The validation pass, lines 324-330. -/
def validate (p : ArgParser) : Bool :=
  !p.arguments_.any (fun e => isMissing e.2)

namespace ArgParser

/-- Method `Parse(const std::vector<std::string>& argv)` (lines 219-331). -/
def Parse (p : ArgParser) (argv : List Str) : Outcome :=
  match parseLoop p 0 (argv.drop 1) with
  | Step.next p' _ => Outcome.returned (validate p') p'
  | Step.ret b p' => Outcome.returned b p'
  | Step.exit => Outcome.exited

/-- Method `Help()` (lines 405-407). -/
def Help (p : ArgParser) : Bool := p.help_flag_

/-- Method `GetIntValue(name, index)` (lines 352-361); `none` is the `exit` of
`GetValue`. -/
def GetIntValue (p : ArgParser) (name : Str) (index : Int) : Option Int :=
  match mapFind p.arguments_ name with
  | some (ArgBase.int a) => a.GetValue index
  | _ => some index

/-- Method `GetStringValue(name, index)` (lines 363-372). -/
def GetStringValue (p : ArgParser) (name : Str) (index : Int) : Option Str :=
  match mapFind p.arguments_ name with
  | some (ArgBase.string a) => a.GetValue index
  | _ => some "0".toList

/-- Method `GetBoolValue(name, index)` (lines 374-383). -/
def GetBoolValue (p : ArgParser) (name : Str) (index : Int) : Option Bool :=
  match mapFind p.arguments_ name with
  | some (ArgBase.bool a) => a.GetValue index
  | _ => some false

/-- Method `GetFlag(name, index)` (lines 385-394). -/
def GetFlag (p : ArgParser) (name : Str) (index : Int) : Option Bool :=
  match mapFind p.arguments_ name with
  | some (ArgBase.bool a) => a.GetValue index
  | _ => some false

end ArgParser

/-! ## Observations used in the statements -/

/-- The stored sequence `values_` of a spec, as raw values. -/
inductive Value where
  | int (n : Int) : Value
  | string (s : Str) : Value
  | bool (b : Bool) : Value
  deriving DecidableEq

/-- The stored sequence `values_` of a type-erased spec. -/
def ArgBase.values : ArgBase → List Value
  | ArgBase.int a => a.values_.map Value.int
  | ArgBase.string a => a.values_.map Value.string
  | ArgBase.bool a => a.values_.map Value.bool

/-- The stored sequence of the spec registered under `name`, when there is one. -/
def ArgParser.stored (p : ArgParser) (name : Str) : Option (List Value) :=
  (mapFind p.arguments_ name).map ArgBase.values

/-- The verdict of a call of `Parse` that returned. -/
def Outcome.verdict : Outcome → Option Bool
  | Outcome.returned b _ => some b
  | Outcome.exited => none

/-- The value of `Help()` after a call of `Parse` that returned. -/
def Outcome.help : Outcome → Option Bool
  | Outcome.returned _ p => some p.Help
  | Outcome.exited => none

/-- The stored sequence of the spec `name` after a call of `Parse` that returned. -/
def Outcome.stored : Outcome → Str → Option (List Value)
  | Outcome.returned _ p, name => p.stored name
  | Outcome.exited, _ => none

/-- The raw value the converter of a type-erased spec yields for a token (`none`
when the converter terminates the process). -/
def ArgBase.convert : ArgBase → Str → Option Value
  | ArgBase.int a, s => (a.convert_func_ s).map Value.int
  | ArgBase.string a, s => (a.convert_func_ s).map Value.string
  | ArgBase.bool a, s => (a.convert_func_ s).map Value.bool

/-- The spec writes what it stores to its own sequence `values_`: its
`store_func_` is not the lambda installed by `StoreValue`. -/
def ArgBase.keepsValues : ArgBase → Bool
  | ArgBase.int a => match a.store_func_ with | StoreFunc.scalar _ => false | _ => true
  | ArgBase.string a => match a.store_func_ with | StoreFunc.scalar _ => false | _ => true
  | ArgBase.bool a => match a.store_func_ with | StoreFunc.scalar _ => false | _ => true

/-- The threshold `min_count_` of a type-erased spec. -/
def ArgBase.minCount : ArgBase → Int
  | ArgBase.int a => a.min_count_
  | ArgBase.string a => a.min_count_
  | ArgBase.bool a => a.min_count_

/-! ## States that the builder interface can produce -/

/-- One call on an `Arg<ArgType>` object through its public interface. -/
inductive Arg.Call {α : Type} (arith : Option (α → Int)) : Arg α → Arg α → Prop where
  | multiValue (a : Arg α) : Arg.Call arith a a.MultiValue
  | multiValueMin (a : Arg α) (value : Int) : Arg.Call arith a (a.MultiValueMin value)
  | positional (a : Arg α) : Arg.Call arith a a.Positional
  | default (a : Arg α) (value : α) : Arg.Call arith a (a.Default value)
  | storeValue (a : Arg α) (other_value : α) : Arg.Call arith a (a.StoreValue other_value)
  | storeValues (a : Arg α) (c : List α) : Arg.Call arith a (a.StoreValues c)
  | addValue (a a' : Arg α) (value : Str) (b : Bool) :
      a.AddValue arith value = some (b, a') → Arg.Call arith a a'

/-- States of an `Arg<ArgType>` object reachable from its constructor by calls of
`MultiValue`, `Positional`, `Default`, `StoreValue`, `StoreValues` and `AddValue`. -/
inductive Arg.Reachable {α : Type} (arith : Option (α → Int)) : Arg α → Prop where
  | ctor (short_name : Char) (long_name description : Str) (flag help : Bool)
      (func : Str → Option α) :
      Arg.Reachable arith (Arg.ctor short_name long_name description flag help func)
  | call (a a' : Arg α) : Arg.Reachable arith a → Arg.Call arith a a' → Arg.Reachable arith a'

/-- Reachable states of a type-erased spec. -/
def ArgBase.Reachable : ArgBase → Prop
  | ArgBase.int a => Arg.Reachable (some id) a
  | ArgBase.string a => Arg.Reachable none a
  | ArgBase.bool a => Arg.Reachable (some boolToInt) a

/-- A registry all of whose specs are in a state the builder interface can
produce. -/
def ArgParser.Constructible (p : ArgParser) : Prop :=
  ∀ e ∈ p.arguments_, e.2.Reachable

/-- Zero or more calls of `AddValue` on one spec, each of which returned. -/
inductive ArgBase.Adds : ArgBase → ArgBase → Prop where
  | refl (a : ArgBase) : ArgBase.Adds a a
  | step (a a1 a2 : ArgBase) (value : Str) (b : Bool) :
      a.AddValue value = some (b, a1) → ArgBase.Adds a1 a2 → ArgBase.Adds a a2

/-- Zero or more calls of `AddValue` on specs of the registry; nothing else of
the registry changes. -/
inductive ArgParser.Evolves : ArgParser → ArgParser → Prop where
  | refl (p : ArgParser) : ArgParser.Evolves p p
  | step (p p' : ArgParser) (name : Str) (a a' : ArgBase) (value : Str) (b : Bool) :
      (name, a) ∈ p.arguments_ → a.AddValue value = some (b, a') →
      ArgParser.Evolves (p.setArg name a') p' → ArgParser.Evolves p p'

/-- What one run of the loop body, or of the whole token loop, may do to the
registry: add values to registered specs and, when it leaves `Parse` with
`true`, set the help flag. -/
def StepSpec (p : ArgParser) : Step → Prop
  | Step.next p' _ => ArgParser.Evolves p p'
  | Step.ret true p' => ∃ p0, ArgParser.Evolves p p0 ∧ p' = { p0 with help_flag_ := true }
  | Step.ret false p' => ArgParser.Evolves p p'
  | Step.exit => True

/-- A non-empty stored sequence comes with the "usable value" mark. -/
def ArgBase.Inv (a : ArgBase) : Prop := a.isEmpty = false → a.isGood = true

/-- The number of following tokens a loop body reports as taken. -/
def Step.consumed : Step → Nat
  | Step.next _ n => n
  | _ => 0

/-- A token `--name` (no `=`) whose name is not a registered long name, or a
token `-z` (`z` not a dash) whose character is not a registered short alias. -/
def UnknownOption (p : ArgParser) (bad : Str) : Prop :=
  (∃ name, bad = '-' :: '-' :: name ∧ '=' ∉ name ∧ mapFind p.arguments_ name = none) ∨
  (∃ z, bad = ['-', z] ∧ z ≠ '-' ∧ mapFind p.arg_names_ z = none)

/-! ## Concrete registries used as instances -/

/-- A registry with one integer option `-n` / `--num`. -/
def numParser : ArgParser :=
  (ArgParser.ctor "prog".toList).AddIntArgumentShort 'n' "num".toList [] false false

/-- The registry `numParser` after `5` was added to `num`. -/
def numParserAfter : ArgParser :=
  numParser.setArg "num".toList
    (ArgBase.int { (Arg.ctor 'n' "num".toList [] false false convertInt : Arg Int) with
      is_good_ := true, values_ := [5] })

/-- The registry `numParser` with a help trigger `-h` / `--help`. -/
def helpParser : ArgParser :=
  numParser.AddHelp 'h' "help".toList "Show help message".toList

/-- A registry whose only spec is a freshly declared integer option. -/
def soleInt (pn : Str) (sn : Char) (ln desc : Str) (conv : Str → Option Int) : ArgParser :=
  (ArgParser.ctor pn).AddArgument ArgBase.int sn ln desc false false conv

/-- A registry whose only spec is a freshly declared string option. -/
def soleString (pn : Str) (sn : Char) (ln desc : Str) (conv : Str → Option Str) : ArgParser :=
  (ArgParser.ctor pn).AddArgument ArgBase.string sn ln desc false false conv

/-- A registry whose only spec is a freshly declared boolean option. -/
def soleBool (pn : Str) (sn : Char) (ln desc : Str) (conv : Str → Option Bool) : ArgParser :=
  (ArgParser.ctor pn).AddArgument ArgBase.bool sn ln desc false false conv

/-- An integer option `--num` bound to a caller-owned variable (holding `0`) with
`StoreValue`, and nothing else. -/
def storeParser : ArgParser :=
  ((ArgParser.ctor "prog".toList).AddIntArgument "num".toList [] false false).chainInt
    "num".toList (fun a => a.StoreValue 0)

/-- A string option `--name`, and nothing else. -/
def nameParser : ArgParser :=
  (ArgParser.ctor "prog".toList).AddStringArgument "name".toList [] false false

/-- The spec after an `AddValue` call that converted its token to `val` and
stored it (lines 68 and 74). -/
def Arg.accept {α : Type} (a : Arg α) (val : α) : Arg α :=
  ({ a with is_good_ := true } : Arg α).store val

/-- A flag `-v` / `--verbose` and one positional string spec `file`. -/
def verboseParser : ArgParser :=
  (((ArgParser.ctor "prog".toList).AddFlagShort 'v' "verbose".toList []).AddStringArgument
    "file".toList [] false false).chainString "file".toList Arg.Positional

/-- One positional integer spec `-l` / `--level` with the threshold 5
(`MultiValue(5)`), no default. -/
def levelParser : ArgParser :=
  ((ArgParser.ctor "prog".toList).AddIntArgumentShort 'l' "level".toList [] false false).chainInt
    "level".toList (fun a => (a.MultiValueMin 5).Positional)

/-- The keys of `arguments_` are pairwise distinct, as in every
`std::unordered_map`. -/
def ArgParser.WellFormed (p : ArgParser) : Prop :=
  (p.arguments_.map Prod.fst).Nodup

/-- Zero or more calls of `AddValue` on one `Arg<ArgType>` object, each of which
returned. -/
inductive Arg.AddValues {α : Type} (arith : Option (α → Int)) : Arg α → Arg α → Prop where
  | refl (a : Arg α) : Arg.AddValues arith a a
  | step (a a1 a2 : Arg α) (value : Str) (b : Bool) :
      a.AddValue arith value = some (b, a1) → Arg.AddValues arith a1 a2 →
      Arg.AddValues arith a a2

/-- The read-back `GetValue(index)` of a type-erased spec, as a raw value. -/
def ArgBase.GetValue : ArgBase → Int → Option Value
  | ArgBase.int a, index => (a.GetValue index).map Value.int
  | ArgBase.string a, index => (a.GetValue index).map Value.string
  | ArgBase.bool a, index => (a.GetValue index).map Value.bool

/-- The token `arg` does not resolve to the spec `name`: not by its long name,
not by a short alias, and not as a positional token. -/
def TokenAvoids (p : ArgParser) (name : Str) (arg : Str) : Prop :=
  if charAt arg 0 = '-' then
    if charAt arg 1 = '-' then
      (if (arg.drop 2).contains '=' then (splitString (arg.drop 2) '=').1 else arg.drop 2) ≠ name
    else if (arg.drop 1).contains '=' then
      mapFind p.arg_names_ (charAt (arg.drop 1) 0) ≠ some name
    else ∀ c ∈ arg.drop 1, mapFind p.arg_names_ c ≠ some name
  else ∀ e ∈ p.arguments_, e.2.isPositional = true → e.1 ≠ name

/-- What a loop body may not do to the spec `name` when its token does not
resolve to it: the entry found under `name` is the same afterwards. -/
def StepFrame (p : ArgParser) (name : Str) : Step → Prop
  | Step.next p' _ => mapFind p'.arguments_ name = mapFind p.arguments_ name
  | Step.ret _ p' => mapFind p'.arguments_ name = mapFind p.arguments_ name
  | Step.exit => True

/-- Integer options `-a` / `--alpha` and `-b` / `--beta`. -/
def alphaBetaParser : ArgParser :=
  ((ArgParser.ctor "prog".toList).AddIntArgumentShort 'a' "alpha".toList [] false
    false).AddIntArgumentShort 'b' "beta".toList [] false false

/-- One integer option declared through the long-name-only overload. -/
def longOnlyParser : ArgParser :=
  (ArgParser.ctor "prog".toList).AddIntArgument "num".toList [] false false

/-- The integer spec `-n` / `--num` after `Default(7)`. -/
def numWithDefault : ArgBase :=
  ArgBase.int ((Arg.ctor 'n' "num".toList [] false false convertInt).Default 7)

/-- An integer spec with the threshold 5 (`MultiValue(5)`). -/
def mirrorStart : Arg Int :=
  (Arg.ctor 'n' "num".toList [] false false convertInt).MultiValueMin 5

/-- The spec `mirrorStart` after `StoreValues(c)` with `c = [1]`, then
`AddValue("7")` (stored) and `AddValue("3")` (rejected). -/
def mirrorEnd : Arg Int :=
  { mirrorStart with
    is_good_ := true, values_ := [7], store_func_ := StoreFunc.container [1, 7] }

/-- The result of `GetFlag(name, index)` on the registry a call of `Parse` left
(`none` when `GetValue` exits or `Parse` did not return). -/
def Outcome.getFlag : Outcome → Str → Int → Option Bool
  | Outcome.returned _ p, name, index => p.GetFlag name index
  | Outcome.exited, _, _ => none

/-- The registry `verboseParser` after the positional token `f`. -/
def verboseParserAfter : ArgParser :=
  verboseParser.setArg "file".toList
    (ArgBase.string ((Arg.ctor ' ' "file".toList [] false false convertString).Positional.accept
      "f".toList))

theorem mapFind_mapAssign_self {κ β : Type} [DecidableEq κ] (m : List (κ × β)) (k : κ) (v : β) :
    mapFind (mapAssign m k v) k = some v := by
  induction m with
  | nil => simp [mapAssign, mapFind]
  | cons e m ih =>
    obtain ⟨k', v'⟩ := e
    by_cases h : k' = k
    · simp [mapAssign, mapFind, h]
    · simp [mapAssign, mapFind, h, ih]

theorem mapFind_mapAssign_ne {κ β : Type} [DecidableEq κ] (m : List (κ × β)) (k k2 : κ) (v : β)
    (hne : k ≠ k2) : mapFind (mapAssign m k v) k2 = mapFind m k2 := by
  induction m with
  | nil => simp [mapAssign, mapFind, hne]
  | cons e m ih =>
    obtain ⟨k', v'⟩ := e
    by_cases h : k' = k
    · subst h
      simp [mapAssign, mapFind, hne]
    · by_cases h2 : k' = k2
      · subst h2
        simp [mapAssign, mapFind, h]
      · simp [mapAssign, mapFind, h, h2, ih]

theorem mapAssign_mapAssign {κ β : Type} [DecidableEq κ] (m : List (κ × β)) (k : κ) (v w : β) :
    mapAssign (mapAssign m k v) k w = mapAssign m k w := by
  induction m with
  | nil => simp [mapAssign]
  | cons e m ih =>
    obtain ⟨k', v'⟩ := e
    by_cases h : k' = k
    · simp [mapAssign, h]
    · simp [mapAssign, h, ih]

theorem mapAssign_same {κ β : Type} [DecidableEq κ] (m : List (κ × β)) (k : κ) (v : β)
    (h : mapFind m k = some v) : mapAssign m k v = m := by
  induction m with
  | nil => simp [mapFind] at h
  | cons e m ih =>
    obtain ⟨k', v'⟩ := e
    by_cases hk : k' = k
    · simp [mapFind, hk] at h
      simp [mapAssign, hk, h]
    · simp [mapFind, hk] at h
      simp [mapAssign, hk, ih h]

theorem mapAssign_keys {κ β : Type} [DecidableEq κ] (m : List (κ × β)) (k : κ) (v w : β)
    (h : mapFind m k = some v) : (mapAssign m k w).map Prod.fst = m.map Prod.fst := by
  induction m with
  | nil => simp [mapFind] at h
  | cons e m ih =>
    obtain ⟨k', v'⟩ := e
    by_cases hk : k' = k
    · simp [mapAssign, hk]
    · simp [mapFind, hk] at h
      simp [mapAssign, hk, ih h]

theorem mapFind_eq_none_of_keys {κ β : Type} [DecidableEq κ] (m m' : List (κ × β)) (k : κ)
    (hk : m'.map Prod.fst = m.map Prod.fst) (h : mapFind m k = none) : mapFind m' k = none := by
  induction m generalizing m' with
  | nil =>
    cases m' with
    | nil => rfl
    | cons e m' => simp at hk
  | cons e m ih =>
    cases m' with
    | nil => simp at hk
    | cons e' m' =>
      obtain ⟨k1, v1⟩ := e
      obtain ⟨k2, v2⟩ := e'
      simp only [List.map_cons, List.cons.injEq] at hk
      obtain ⟨h1, h2⟩ := hk
      subst h1
      by_cases hkk : k2 = k
      · simp [mapFind, hkk] at h
      · simp only [mapFind, hkk, if_false] at h ⊢
        exact ih m' h2 h

theorem mem_mapAssign {κ β : Type} [DecidableEq κ] (m : List (κ × β)) (k : κ) (v : β)
    (e : κ × β) (he : e ∈ mapAssign m k v) : e ∈ m ∨ e.2 = v := by
  induction m with
  | nil =>
    simp [mapAssign] at he
    right
    simp [he]
  | cons e0 m ih =>
    obtain ⟨k', v'⟩ := e0
    by_cases hk : k' = k
    · simp only [mapAssign, hk, if_true, List.mem_cons] at he
      rcases he with he | he
      · right
        simp [he]
      · left
        exact List.mem_cons_of_mem _ he
    · simp only [mapAssign, hk, if_false, List.mem_cons] at he
      rcases he with he | he
      · left
        simp [he]
      · rcases ih he with h | h
        · left
          exact List.mem_cons_of_mem _ h
        · right
          exact h

theorem mem_of_mapFind {κ β : Type} [DecidableEq κ] (m : List (κ × β)) (k : κ) (v : β)
    (h : mapFind m k = some v) : (k, v) ∈ m := by
  induction m with
  | nil => simp [mapFind] at h
  | cons e m ih =>
    obtain ⟨k', v'⟩ := e
    by_cases hk : k' = k
    · simp [mapFind, hk] at h
      simp [hk, h]
    · simp [mapFind, hk] at h
      exact List.mem_cons_of_mem _ (ih h)

theorem Arg.AddValue_spec {α : Type} (arith : Option (α → Int)) (a a' : Arg α) (v : Str) (b : Bool)
    (h : a.AddValue arith v = some (b, a')) :
    ∃ val, a.convert_func_ v = some val ∧
      ((b = false ∧ a' = { a with is_good_ := true }) ∨
       (b = true ∧ a' = ({ a with is_good_ := true } : Arg α).store val)) := by
  unfold Arg.AddValue at h
  cases hc : a.convert_func_ v with
  | none => simp [hc] at h
  | some val =>
    refine ⟨val, rfl, ?_⟩
    simp only [hc] at h
    cases arith with
    | none =>
      simp only [Option.some.injEq, Prod.mk.injEq] at h
      right
      exact ⟨h.1.symm, h.2.symm⟩
    | some toInt =>
      simp only at h
      split at h
      · simp only [Option.some.injEq, Prod.mk.injEq] at h
        left
        exact ⟨h.1.symm, h.2.symm⟩
      · simp only [Option.some.injEq, Prod.mk.injEq] at h
        right
        exact ⟨h.1.symm, h.2.symm⟩

theorem Arg.store_fields {α : Type} (a : Arg α) (val : α) :
    (a.store val).is_good_ = a.is_good_ ∧ (a.store val).is_flag_ = a.is_flag_ ∧
    (a.store val).is_help_ = a.is_help_ ∧ (a.store val).is_positional_ = a.is_positional_ ∧
    (a.store val).is_multivalue_ = a.is_multivalue_ ∧ (a.store val).min_count_ = a.min_count_ ∧
    (a.store val).convert_func_ = a.convert_func_ := by
  unfold Arg.store
  cases a.store_func_ <;> simp

theorem Arg.AddValue_keeps {α : Type} (arith : Option (α → Int)) (a a' : Arg α) (v : Str) (b : Bool)
    (h : a.AddValue arith v = some (b, a')) :
    a'.is_good_ = true ∧ a'.is_flag_ = a.is_flag_ ∧ a'.is_help_ = a.is_help_ ∧
    a'.is_positional_ = a.is_positional_ ∧ a'.is_multivalue_ = a.is_multivalue_ ∧
    a'.min_count_ = a.min_count_ ∧ a'.convert_func_ = a.convert_func_ := by
  obtain ⟨val, _, h1 | h1⟩ := Arg.AddValue_spec arith a a' v b h
  · rw [h1.2]
    simp
  · rw [h1.2]
    have := Arg.store_fields ({ a with is_good_ := true } : Arg α) val
    simpa using this

theorem ArgBase.AddValue_fields (a a' : ArgBase) (v : Str) (b : Bool)
    (h : a.AddValue v = some (b, a')) :
    a'.isGood = true ∧ a'.isFlag = a.isFlag ∧ a'.isHelp = a.isHelp ∧
    a'.isPositional = a.isPositional ∧ a'.isMultiValue = a.isMultiValue ∧
    a'.minCount = a.minCount := by
  cases a with
  | int x =>
    simp only [ArgBase.AddValue] at h
    cases hx : x.AddValue (some id) v with
    | none => simp [hx, ArgBase.liftResult] at h
    | some r =>
      obtain ⟨b0, x'⟩ := r
      simp only [hx, ArgBase.liftResult, Option.some.injEq, Prod.mk.injEq] at h
      obtain ⟨h1, h2⟩ := h
      subst h1 h2
      have := Arg.AddValue_keeps _ x x' v b0 hx
      simp only [ArgBase.isGood, ArgBase.isFlag, ArgBase.isHelp, ArgBase.isPositional,
        ArgBase.isMultiValue, ArgBase.minCount, Arg.isGood, Arg.isFlag, Arg.isHelp,
        Arg.isPositional, Arg.isMultiValue]
      tauto
  | string x =>
    simp only [ArgBase.AddValue] at h
    cases hx : x.AddValue none v with
    | none => simp [hx, ArgBase.liftResult] at h
    | some r =>
      obtain ⟨b0, x'⟩ := r
      simp only [hx, ArgBase.liftResult, Option.some.injEq, Prod.mk.injEq] at h
      obtain ⟨h1, h2⟩ := h
      subst h1 h2
      have := Arg.AddValue_keeps _ x x' v b0 hx
      simp only [ArgBase.isGood, ArgBase.isFlag, ArgBase.isHelp, ArgBase.isPositional,
        ArgBase.isMultiValue, ArgBase.minCount, Arg.isGood, Arg.isFlag, Arg.isHelp,
        Arg.isPositional, Arg.isMultiValue]
      tauto
  | bool x =>
    simp only [ArgBase.AddValue] at h
    cases hx : x.AddValue (some boolToInt) v with
    | none => simp [hx, ArgBase.liftResult] at h
    | some r =>
      obtain ⟨b0, x'⟩ := r
      simp only [hx, ArgBase.liftResult, Option.some.injEq, Prod.mk.injEq] at h
      obtain ⟨h1, h2⟩ := h
      subst h1 h2
      have := Arg.AddValue_keeps _ x x' v b0 hx
      simp only [ArgBase.isGood, ArgBase.isFlag, ArgBase.isHelp, ArgBase.isPositional,
        ArgBase.isMultiValue, ArgBase.minCount, Arg.isGood, Arg.isFlag, Arg.isHelp,
        Arg.isPositional, Arg.isMultiValue]
      tauto

theorem ArgBase.Adds.adds_trans {a b c : ArgBase} (h1 : ArgBase.Adds a b) (h2 : ArgBase.Adds b c) :
    ArgBase.Adds a c := by
  induction h1 with
  | refl a => exact h2
  | step a a1 a2 value b0 hv _ ih => exact ArgBase.Adds.step a a1 _ value b0 hv (ih h2)

theorem ArgBase.Adds.single {a a' : ArgBase} {v : Str} {b : Bool}
    (h : a.AddValue v = some (b, a')) : ArgBase.Adds a a' :=
  ArgBase.Adds.step a a' a' v b h (ArgBase.Adds.refl a')

theorem ArgBase.Adds.adds_fields {a a' : ArgBase} (h : ArgBase.Adds a a') :
    (a' = a ∨ a'.isGood = true) ∧ a'.isFlag = a.isFlag ∧ a'.isHelp = a.isHelp ∧
    a'.isPositional = a.isPositional ∧ a'.isMultiValue = a.isMultiValue ∧
    a'.minCount = a.minCount := by
  induction h with
  | refl a => simp
  | step a a1 a2 value b0 hv _ ih =>
    have h1 := ArgBase.AddValue_fields a a1 value b0 hv
    obtain ⟨ih0, ih1, ih2, ih3, ih4, ih5⟩ := ih
    obtain ⟨g0, g1, g2, g3, g4, g5⟩ := h1
    refine ⟨?_, ih1.trans g1, ih2.trans g2, ih3.trans g3, ih4.trans g4, ih5.trans g5⟩
    rcases ih0 with e | e
    · right
      rw [e]
      exact g0
    · right
      exact e

theorem multiLoop_spec (a : ArgBase) (ts : List Str) (b : Bool) (a' : ArgBase) (n : Nat)
    (h : multiLoop a ts = some (b, a', n)) : ArgBase.Adds a a' ∧ n ≤ ts.length := by
  induction ts generalizing a b a' n with
  | nil =>
    simp only [multiLoop, Option.some.injEq, Prod.mk.injEq] at h
    obtain ⟨_, h2, h3⟩ := h
    subst h2 h3
    exact ⟨ArgBase.Adds.refl _, Nat.le_refl _⟩
  | cons t ts ih =>
    simp only [multiLoop] at h
    split at h
    · cases hv : a.AddValue t with
      | none => simp [hv] at h
      | some r =>
        obtain ⟨b0, a1⟩ := r
        cases b0 with
        | false =>
          simp only [hv, Option.some.injEq, Prod.mk.injEq] at h
          obtain ⟨_, h2, h3⟩ := h
          subst h2 h3
          exact ⟨ArgBase.Adds.single hv, by simp⟩
        | true =>
          simp only [hv] at h
          cases hm : multiLoop a1 ts with
          | none => simp [hm] at h
          | some r2 =>
            obtain ⟨b2, a2, n2⟩ := r2
            simp only [hm, Option.some.injEq, Prod.mk.injEq] at h
            obtain ⟨_, h2, h3⟩ := h
            subst h2 h3
            obtain ⟨i1, i2⟩ := ih a1 b2 a2 n2 hm
            exact ⟨(ArgBase.Adds.single hv).adds_trans i1, by simp; omega⟩
    · simp only [Option.some.injEq, Prod.mk.injEq] at h
      obtain ⟨_, h2, h3⟩ := h
      subst h2 h3
      exact ⟨ArgBase.Adds.refl _, Nat.zero_le _⟩

theorem takeValue_spec (a : ArgBase) (ts : List Str) (b : Bool) (a' : ArgBase) (n : Nat)
    (h : takeValue a ts = some (b, a', n)) : ArgBase.Adds a a' ∧ n ≤ ts.length := by
  cases ts with
  | nil =>
    simp only [takeValue, Option.some.injEq, Prod.mk.injEq] at h
    obtain ⟨_, h2, h3⟩ := h
    subst h2 h3
    exact ⟨ArgBase.Adds.refl _, Nat.le_refl _⟩
  | cons t ts =>
    simp only [takeValue] at h
    split at h
    · cases hv : a.AddValue t with
      | none => simp [hv] at h
      | some r =>
        obtain ⟨b0, a1⟩ := r
        cases b0 with
        | false =>
          simp only [hv, Option.some.injEq, Prod.mk.injEq] at h
          obtain ⟨_, h2, h3⟩ := h
          subst h2 h3
          exact ⟨ArgBase.Adds.single hv, by simp⟩
        | true =>
          simp only [hv] at h
          cases hm : multiLoop a1 ts with
          | none => simp [hm] at h
          | some r2 =>
            obtain ⟨b2, a2, n2⟩ := r2
            simp only [hm, Option.some.injEq, Prod.mk.injEq] at h
            obtain ⟨_, h2, h3⟩ := h
            subst h2 h3
            obtain ⟨i1, i2⟩ := multiLoop_spec a1 ts b2 a2 n2 hm
            exact ⟨(ArgBase.Adds.single hv).adds_trans i1, by simp; omega⟩
    · simp only [Option.some.injEq, Prod.mk.injEq] at h
      obtain ⟨_, h2, h3⟩ := h
      subst h2 h3
      exact ⟨ArgBase.Adds.refl _, Nat.zero_le _⟩

theorem multiLoopIgnore_spec (a : ArgBase) (ts : List Str) (a' : ArgBase) (n : Nat)
    (h : multiLoopIgnore a ts = some (a', n)) : ArgBase.Adds a a' ∧ n ≤ ts.length := by
  induction ts generalizing a a' n with
  | nil =>
    simp only [multiLoopIgnore, Option.some.injEq, Prod.mk.injEq] at h
    obtain ⟨h2, h3⟩ := h
    subst h2 h3
    exact ⟨ArgBase.Adds.refl _, Nat.le_refl _⟩
  | cons t ts ih =>
    simp only [multiLoopIgnore] at h
    split at h
    · cases hv : a.AddValue t with
      | none => simp [hv] at h
      | some r =>
        obtain ⟨b0, a1⟩ := r
        simp only [hv] at h
        cases hm : multiLoopIgnore a1 ts with
        | none => simp [hm] at h
        | some r2 =>
          obtain ⟨a2, n2⟩ := r2
          simp only [hm, Option.some.injEq, Prod.mk.injEq] at h
          obtain ⟨h2, h3⟩ := h
          subst h2 h3
          obtain ⟨i1, i2⟩ := ih a1 a2 n2 hm
          exact ⟨(ArgBase.Adds.single hv).adds_trans i1, by simp; omega⟩
    · simp only [Option.some.injEq, Prod.mk.injEq] at h
      obtain ⟨h2, h3⟩ := h
      subst h2 h3
      exact ⟨ArgBase.Adds.refl _, Nat.zero_le _⟩

theorem ArgParser.Evolves.evolves_trans {p q r : ArgParser} (h1 : ArgParser.Evolves p q)
    (h2 : ArgParser.Evolves q r) : ArgParser.Evolves p r := by
  induction h1 with
  | refl p => exact h2
  | step p p' name a a' value b hm hv _ ih =>
    exact ArgParser.Evolves.step p _ name a a' value b hm hv (ih h2)

theorem ArgParser.setArg_setArg (p : ArgParser) (name : Str) (a b : ArgBase) :
    (p.setArg name a).setArg name b = p.setArg name b := by
  simp [ArgParser.setArg, mapAssign_mapAssign]

theorem mem_mapAssign_self {κ β : Type} [DecidableEq κ] (m : List (κ × β)) (k : κ) (v : β) :
    (k, v) ∈ mapAssign m k v :=
  mem_of_mapFind _ _ _ (mapFind_mapAssign_self m k v)

theorem ArgParser.Evolves.of_adds (p : ArgParser) (name : Str) (a a' : ArgBase)
    (hm : (name, a) ∈ p.arguments_) (h : ArgBase.Adds a a') :
    ArgParser.Evolves p (p.setArg name a') ∨ a' = a := by
  induction h generalizing p with
  | refl a => right; rfl
  | step a a1 a2 value b hv _ ih =>
    left
    have hm1 : (name, a1) ∈ (p.setArg name a1).arguments_ := mem_mapAssign_self _ _ _
    rcases ih (p.setArg name a1) hm1 with h | h
    · rw [ArgParser.setArg_setArg] at h
      exact ArgParser.Evolves.step p _ name a a1 value b hm hv h
    · subst h
      exact ArgParser.Evolves.step p _ name a _ value b hm hv (ArgParser.Evolves.refl _)

theorem ArgParser.setArg_same (p : ArgParser) (name : Str) (a : ArgBase)
    (h : mapFind p.arguments_ name = some a) : p.setArg name a = p := by
  simp [ArgParser.setArg, mapAssign_same _ _ _ h]

/-- Writing back the result of some `AddValue` calls on the spec found under
`name` is an evolution of the registry. -/
theorem ArgParser.Evolves.setArg (p : ArgParser) (name : Str) (a a' : ArgBase)
    (hm : mapFind p.arguments_ name = some a) (h : ArgBase.Adds a a') :
    ArgParser.Evolves p (p.setArg name a') := by
  rcases ArgParser.Evolves.of_adds p name a a' (mem_of_mapFind _ _ _ hm) h with h1 | h1
  · exact h1
  · subst h1
    rw [ArgParser.setArg_same p name _ hm]
    exact ArgParser.Evolves.refl _

theorem ArgParser.Evolves.evolves_fields {p p' : ArgParser} (h : ArgParser.Evolves p p') :
    p'.help_flag_ = p.help_flag_ ∧ p'.arg_names_ = p.arg_names_ ∧
    p'.program_name_ = p.program_name_ ∧
    p'.arguments_.map Prod.fst = p.arguments_.map Prod.fst := by
  induction h with
  | refl p => simp
  | step p p' name a a' value b hm hv _ ih =>
    obtain ⟨i1, i2, i3, i4⟩ := ih
    refine ⟨i1, i2, i3, ?_⟩
    rw [i4]
    simp only [ArgParser.setArg]
    obtain ⟨w, hw⟩ : ∃ w, mapFind p.arguments_ name = some w := by
      clear hv i4
      generalize p.arguments_ = m at hm
      induction m with
      | nil => simp at hm
      | cons e m ih =>
        obtain ⟨k', v'⟩ := e
        by_cases hk : k' = name
        · exact ⟨v', by simp [mapFind, hk]⟩
        · simp only [List.mem_cons, Prod.mk.injEq] at hm
          rcases hm with hm | hm
          · exact absurd hm.1.symm hk
          · obtain ⟨w, hw⟩ := ih hm
            exact ⟨w, by simp [mapFind, hk, hw]⟩
    exact mapAssign_keys _ _ _ _ hw

theorem StepSpec.mono (p q : ArgParser) (s : Step) (h1 : ArgParser.Evolves p q)
    (h2 : StepSpec q s) : StepSpec p s := by
  cases s with
  | next p' n => exact h1.evolves_trans h2
  | ret b p' =>
    cases b with
    | false => exact h1.evolves_trans h2
    | true =>
      obtain ⟨p0, e, rfl⟩ := h2
      exact ⟨p0, h1.evolves_trans e, rfl⟩
  | exit => trivial

theorem parseLong_spec (p : ArgParser) (arg_name : Str) (rest : List Str) :
    StepSpec p (parseLong p arg_name rest) ∧ (parseLong p arg_name rest).consumed ≤ rest.length :=
        by
  unfold parseLong
  split
  · cases hf : mapFind p.arguments_ (splitString arg_name '=').1 with
    | none => exact ⟨ArgParser.Evolves.refl _, Nat.zero_le _⟩
    | some a =>
      simp only
      cases hv : a.AddValue (splitString arg_name '=').2 with
      | none => exact ⟨trivial, Nat.zero_le _⟩
      | some r =>
        obtain ⟨b, a'⟩ := r
        cases b
        · exact ⟨ArgParser.Evolves.setArg p _ a a' hf (ArgBase.Adds.single hv), Nat.zero_le _⟩
        · exact ⟨ArgParser.Evolves.setArg p _ a a' hf (ArgBase.Adds.single hv), Nat.zero_le _⟩
  · cases hf : mapFind p.arguments_ arg_name with
    | none => exact ⟨ArgParser.Evolves.refl _, Nat.zero_le _⟩
    | some a =>
      simp only
      split
      · cases hv : a.AddValue "true".toList with
        | none => exact ⟨trivial, Nat.zero_le _⟩
        | some r =>
          obtain ⟨b, a'⟩ := r
          exact ⟨ArgParser.Evolves.setArg p _ a a' hf (ArgBase.Adds.single hv), Nat.zero_le _⟩
      · split
        · exact ⟨⟨p, ArgParser.Evolves.refl _, rfl⟩, Nat.zero_le _⟩
        · cases hv : takeValue a rest with
          | none => exact ⟨trivial, Nat.zero_le _⟩
          | some r =>
            obtain ⟨b, a', n⟩ := r
            obtain ⟨i1, i2⟩ := takeValue_spec a rest b a' n hv
            cases b
            · exact ⟨ArgParser.Evolves.setArg p _ a a' hf i1, Nat.zero_le _⟩
            · exact ⟨ArgParser.Evolves.setArg p _ a a' hf i1, i2⟩

theorem parseShortEq_spec (p : ArgParser) (arg_name : Str) :
    StepSpec p (parseShortEq p arg_name) ∧ (parseShortEq p arg_name).consumed = 0 := by
  unfold parseShortEq
  cases hn : mapFind p.arg_names_ (charAt arg_name 0) with
  | none => exact ⟨ArgParser.Evolves.refl _, rfl⟩
  | some long_name =>
    simp only
    cases hf : mapFind p.arguments_ long_name with
    | none => exact ⟨trivial, rfl⟩
    | some a =>
      simp only
      cases hv : a.AddValue (splitString arg_name '=').2 with
      | none => exact ⟨trivial, rfl⟩
      | some r =>
        obtain ⟨b, a'⟩ := r
        cases b
        · exact ⟨ArgParser.Evolves.setArg p _ a a' hf (ArgBase.Adds.single hv), rfl⟩
        · exact ⟨ArgParser.Evolves.setArg p _ a a' hf (ArgBase.Adds.single hv), rfl⟩

theorem shortChain_spec (p : ArgParser) (cs : List Char) (rest : List Str) (k : Nat) :
    StepSpec p (shortChain p cs rest k) ∧ (shortChain p cs rest k).consumed ≤ k + rest.length := by
  induction cs generalizing p rest k with
  | nil => exact ⟨ArgParser.Evolves.refl _, Nat.le_add_right _ _⟩
  | cons c cs ih =>
    unfold shortChain
    cases hn : mapFind p.arg_names_ c with
    | none => exact ⟨ArgParser.Evolves.refl _, Nat.zero_le _⟩
    | some long_name =>
      simp only
      cases hf : mapFind p.arguments_ long_name with
      | none => exact ⟨trivial, Nat.zero_le _⟩
      | some a =>
        simp only
        split
        · cases hv : a.AddValue "true".toList with
          | none => exact ⟨trivial, Nat.zero_le _⟩
          | some r =>
            obtain ⟨b, a'⟩ := r
            simp only
            obtain ⟨i1, i2⟩ := ih (p.setArg long_name a') rest k
            exact ⟨StepSpec.mono _ _ _ (ArgParser.Evolves.setArg p _ a a' hf (ArgBase.Adds.single
                hv)) i1, i2⟩
        · split
          · exact ⟨⟨p, ArgParser.Evolves.refl _, rfl⟩, Nat.zero_le _⟩
          · cases hv : takeValue a rest with
            | none => exact ⟨trivial, Nat.zero_le _⟩
            | some r =>
              obtain ⟨b, a', n⟩ := r
              obtain ⟨j1, j2⟩ := takeValue_spec a rest b a' n hv
              cases b
              · exact ⟨ArgParser.Evolves.setArg p _ a a' hf j1, Nat.zero_le _⟩
              · simp only
                obtain ⟨i1, i2⟩ := ih (p.setArg long_name a') (rest.drop n) (k + n)
                refine ⟨StepSpec.mono _ _ _ (ArgParser.Evolves.setArg p _ a a' hf j1) i1, ?_⟩
                simp only [List.length_drop] at i2
                omega

theorem ArgParser.Evolves.of_addValue (p : ArgParser) (name : Str) (a a1 a' : ArgBase)
    (v : Str) (b : Bool) (hm : (name, a) ∈ p.arguments_) (hv : a.AddValue v = some (b, a1))
    (h : ArgBase.Adds a1 a') : ArgParser.Evolves p (p.setArg name a') := by
  have hm1 : (name, a1) ∈ (p.setArg name a1).arguments_ := mem_mapAssign_self _ _ _
  rcases ArgParser.Evolves.of_adds (p.setArg name a1) name a1 a' hm1 h with h1 | h1
  · rw [ArgParser.setArg_setArg] at h1
    exact ArgParser.Evolves.step p _ name a a1 v b hm hv h1
  · subst h1
    exact ArgParser.Evolves.step p _ name a _ v b hm hv (ArgParser.Evolves.refl _)

theorem firstPositional_mem (m : List (Str × ArgBase)) (name : Str) (a : ArgBase)
    (h : firstPositional m = some (name, a)) : (name, a) ∈ m ∧ a.isPositional = true := by
  induction m with
  | nil => simp [firstPositional] at h
  | cons e m ih =>
    obtain ⟨k, v⟩ := e
    simp only [firstPositional] at h
    split at h
    · simp only [Option.some.injEq, Prod.mk.injEq] at h
      obtain ⟨h1, h2⟩ := h
      subst h1 h2
      exact ⟨List.mem_cons_self _ _, by assumption⟩
    · obtain ⟨i1, i2⟩ := ih h
      exact ⟨List.mem_cons_of_mem _ i1, i2⟩

theorem parsePositional_spec (p : ArgParser) (arg : Str) (rest : List Str) :
    StepSpec p (parsePositional p arg rest) ∧
      (parsePositional p arg rest).consumed ≤ rest.length := by
  unfold parsePositional
  cases hf : firstPositional p.arguments_ with
  | none => exact ⟨ArgParser.Evolves.refl _, Nat.zero_le _⟩
  | some e =>
    obtain ⟨name, a⟩ := e
    simp only
    cases hv : a.AddValue arg with
    | none => exact ⟨trivial, Nat.zero_le _⟩
    | some r =>
      obtain ⟨b, a1⟩ := r
      simp only
      cases hm : multiLoopIgnore a1 rest with
      | none => exact ⟨trivial, Nat.zero_le _⟩
      | some r2 =>
        obtain ⟨a2, n⟩ := r2
        obtain ⟨i1, i2⟩ := multiLoopIgnore_spec a1 rest a2 n hm
        exact ⟨ArgParser.Evolves.of_addValue p name a a1 a2 arg b
          (firstPositional_mem _ _ _ hf).1 hv i1, i2⟩

theorem parseToken_spec (p : ArgParser) (arg : Str) (rest : List Str) :
    StepSpec p (parseToken p arg rest) ∧ (parseToken p arg rest).consumed ≤ rest.length := by
  unfold parseToken
  split
  · split
    · exact parseLong_spec p _ rest
    · split
      · obtain ⟨i1, i2⟩ := parseShortEq_spec p (arg.drop 1)
        exact ⟨i1, by rw [i2]; exact Nat.zero_le _⟩
      · obtain ⟨i1, i2⟩ := shortChain_spec p (arg.drop 1) rest 0
        exact ⟨i1, by simpa using i2⟩
  · exact parsePositional_spec p arg rest

theorem parseLoop_nil (p : ArgParser) (skip : Nat) : parseLoop p skip [] = Step.next p skip := by
  cases skip <;> rfl

theorem parseLoop_skip (p : ArgParser) (k : Nat) (arg : Str) (rest : List Str) :
    parseLoop p (k + 1) (arg :: rest) = parseLoop p k rest := rfl

theorem parseLoop_zero (p : ArgParser) (arg : Str) (rest : List Str) :
    parseLoop p 0 (arg :: rest) =
      match parseToken p arg rest with
      | Step.next p' n => parseLoop p' n rest
      | Step.ret b p' => Step.ret b p'
      | Step.exit => Step.exit := rfl

theorem parseLoop_spec (p : ArgParser) (skip : Nat) (tokens : List Str) :
    StepSpec p (parseLoop p skip tokens) := by
  induction tokens generalizing p skip with
  | nil =>
    rw [parseLoop_nil]
    exact ArgParser.Evolves.refl _
  | cons arg rest ih =>
    cases skip with
    | succ k =>
      rw [parseLoop_skip]
      exact ih p k
    | zero =>
      rw [parseLoop_zero]
      have h := (parseToken_spec p arg rest).1
      cases hs : parseToken p arg rest with
      | next p' n =>
        rw [hs] at h
        exact StepSpec.mono _ _ _ h (ih p' n)
      | ret b p' =>
        rw [hs] at h
        exact h
      | exit => trivial

theorem Arg.store_values_good {α : Type} (a : Arg α) (val : α) :
    (a.store val).is_good_ = a.is_good_ := (Arg.store_fields a val).1

theorem Arg.Reachable.arg_inv {α : Type} (arith : Option (α → Int)) (a : Arg α)
    (h : Arg.Reachable arith a) : a.values_.isEmpty = false → a.is_good_ = true := by
  induction h with
  | ctor => simp [Arg.ctor]
  | call a a' _ hc ih =>
    cases hc with
    | multiValue => simpa [Arg.MultiValue] using ih
    | multiValueMin value => simpa [Arg.MultiValueMin] using ih
    | positional => simpa [Arg.Positional] using ih
    | default value => intro _; simp [Arg.Default]
    | storeValue other_value => intro _; simp [Arg.StoreValue]
    | storeValues c => simpa [Arg.StoreValues] using ih
    | addValue _ _ _ hv => intro _; exact (Arg.AddValue_keeps arith _ _ _ _ hv).1

theorem ArgBase.Reachable.base_inv (a : ArgBase) (h : a.Reachable) : a.Inv := by
  cases a with
  | int x => exact Arg.Reachable.arg_inv _ x h
  | string x => exact Arg.Reachable.arg_inv _ x h
  | bool x => exact Arg.Reachable.arg_inv _ x h

theorem ArgParser.Evolves.evolves_inv {p p' : ArgParser} (h : ArgParser.Evolves p p')
    (hp : ∀ e ∈ p.arguments_, e.2.Inv) : ∀ e ∈ p'.arguments_, e.2.Inv := by
  induction h with
  | refl p => exact hp
  | step p p' name a a' value b hm hv _ ih =>
    apply ih
    intro e he
    rcases mem_mapAssign _ _ _ e he with h1 | h1
    · exact hp e h1
    · intro _
      rw [h1]
      exact (ArgBase.AddValue_fields a a' value b hv).1

/-- C1: when `Parse` returns true and `Help()` is false afterwards, every
registered spec that is neither a flag nor the help trigger reports a usable
value (`isGood`), for every registry whose specs are in states the builder
interface can produce and for every token sequence. -/
theorem parse_true_all_required_good (p p' : ArgParser) (argv : List Str)
    (hc : p.Constructible) (h : p.Parse argv = Outcome.returned true p')
    (hh : p'.Help = false) :
    ∀ e ∈ p'.arguments_, e.2.isFlag = false → e.2.isHelp = false → e.2.isGood = true := by
  have hs := parseLoop_spec p 0 (argv.drop 1)
  unfold ArgParser.Parse at h
  cases hl : parseLoop p 0 (argv.drop 1) with
  | exit => rw [hl] at h; simp at h
  | ret b q =>
    rw [hl] at h
    simp only [Outcome.returned.injEq] at h
    obtain ⟨h1, h2⟩ := h
    subst h1 h2
    rw [hl] at hs
    obtain ⟨p0, _, e0⟩ := hs
    rw [e0] at hh
    simp [ArgParser.Help] at hh
  | next q n =>
    rw [hl] at h
    simp only [Outcome.returned.injEq] at h
    obtain ⟨h1, h2⟩ := h
    subst h2
    rw [hl] at hs
    have hinv := ArgParser.Evolves.evolves_inv hs (fun e he => ArgBase.Reachable.base_inv _ (hc e
        he))
    intro e he hf hhelp
    have hv : isMissing e.2 = false := by
      simp only [validate, Bool.not_eq_true', List.any_eq_false] at h1
      simpa using h1 e he
    have hi := hinv e he
    simp only [isMissing, hf, hhelp] at hv
    cases hg : e.2.isGood with
    | true => rfl
    | false =>
      cases hE : e.2.isEmpty with
      | true => simp [hg, hE] at hv
      | false => rw [hi hE] at hg; exact hg.symm

theorem multiLoop_append_dash (a : ArgBase) (ts post : List Str) (bad : Str)
    (hb : charAt bad 0 = '-') : multiLoop a (ts ++ bad :: post) = multiLoop a ts := by
  induction ts generalizing a with
  | nil => simp [multiLoop, hb]
  | cons t ts ih =>
    simp only [List.cons_append, multiLoop]
    split
    · cases hv : a.AddValue t with
      | none => rfl
      | some r =>
        obtain ⟨b, a'⟩ := r
        cases b
        · rfl
        · simp only [List.append_eq, ih a']
    · rfl

theorem takeValue_append_dash (a : ArgBase) (ts post : List Str) (bad : Str)
    (hb : charAt bad 0 = '-') : takeValue a (ts ++ bad :: post) = takeValue a ts := by
  cases ts with
  | nil => simp [takeValue, hb]
  | cons t ts =>
    simp only [List.cons_append, takeValue]
    split
    · cases hv : a.AddValue t with
      | none => rfl
      | some r =>
        obtain ⟨b, a'⟩ := r
        cases b
        · rfl
        · simp only [multiLoop_append_dash a' ts post bad hb]
    · rfl

theorem multiLoopIgnore_append_dash (a : ArgBase) (ts post : List Str) (bad : Str)
    (hb : charAt bad 0 = '-') : multiLoopIgnore a (ts ++ bad :: post) = multiLoopIgnore a ts := by
  induction ts generalizing a with
  | nil => simp [multiLoopIgnore, hb]
  | cons t ts ih =>
    simp only [List.cons_append, multiLoopIgnore]
    split
    · cases hv : a.AddValue t with
      | none => rfl
      | some r =>
        obtain ⟨b, a'⟩ := r
        simp only [List.append_eq, ih a']
    · rfl

theorem shortChain_append_dash (p : ArgParser) (cs : List Char) (rest post : List Str)
    (bad : Str) (k : Nat) (hb : charAt bad 0 = '-') :
    shortChain p cs (rest ++ bad :: post) k = shortChain p cs rest k := by
  induction cs generalizing p rest k with
  | nil => rfl
  | cons c cs ih =>
    simp only [shortChain]
    cases hn : mapFind p.arg_names_ c with
    | none => rfl
    | some long_name =>
      simp only
      cases hf : mapFind p.arguments_ long_name with
      | none => rfl
      | some a =>
        simp only
        split
        · cases hv : a.AddValue "true".toList with
          | none => rfl
          | some r =>
            obtain ⟨b, a'⟩ := r
            exact ih _ rest k
        · split
          · rfl
          · rw [takeValue_append_dash a rest post bad hb]
            cases hv : takeValue a rest with
            | none => rfl
            | some r =>
              obtain ⟨b, a', n⟩ := r
              cases b
              · rfl
              · simp only
                have hn := (takeValue_spec a rest true a' n hv).2
                rw [List.drop_append_of_le_length hn]
                exact ih _ _ _

theorem parseToken_append_dash (p : ArgParser) (arg : Str) (rest post : List Str)
    (bad : Str) (hb : charAt bad 0 = '-') :
    parseToken p arg (rest ++ bad :: post) = parseToken p arg rest := by
  unfold parseToken
  split
  · split
    · unfold parseLong
      simp only [takeValue_append_dash _ rest post bad hb]
    · split
      · rfl
      · exact shortChain_append_dash p _ rest post bad 0 hb
  · unfold parsePositional
    simp only [multiLoopIgnore_append_dash _ rest post bad hb]

theorem parseLoop_append_dash (p : ArgParser) (k : Nat) (pre post : List Str) (bad : Str)
    (hb : charAt bad 0 = '-') (hk : k ≤ pre.length) :
    parseLoop p k (pre ++ bad :: post) =
      match parseLoop p k pre with
      | Step.next p' _ => parseLoop p' 0 (bad :: post)
      | Step.ret b p' => Step.ret b p'
      | Step.exit => Step.exit := by
  induction pre generalizing p k with
  | nil =>
    simp only [List.length_nil, Nat.le_zero_eq] at hk
    subst hk
    simp [parseLoop_nil]
  | cons arg rest ih =>
    cases k with
    | succ k =>
      simp only [List.cons_append, parseLoop_skip]
      exact ih p k (by simpa using hk)
    | zero =>
      simp only [List.cons_append, parseLoop_zero, parseToken_append_dash p arg rest post bad hb]
      have hc := (parseToken_spec p arg rest).2
      cases hs : parseToken p arg rest with
      | next p' n =>
        rw [hs] at hc
        exact ih p' n hc
      | ret b p' => rfl
      | exit => rfl

theorem parseToken_unknown (p : ArgParser) (bad : Str) (post : List Str)
    (h : UnknownOption p bad) : parseToken p bad post = Step.ret false p := by
  rcases h with ⟨name, rfl, h1, h2⟩ | ⟨z, rfl, h1, h2⟩
  · simp [parseToken, charAt, parseLong, h1, h2]
  · by_cases hz : z = '='
    · subst hz
      simp [parseToken, charAt, parseShortEq, h2]
    · simp [parseToken, charAt, h1, hz, shortChain, h2]
      intro h
      exact absurd h.symm hz

theorem UnknownOption.dash (p : ArgParser) (bad : Str) (h : UnknownOption p bad) :
    charAt bad 0 = '-' := by
  rcases h with ⟨name, rfl, _, _⟩ | ⟨z, rfl, _, _⟩ <;> simp [charAt]

theorem UnknownOption.evolves (p p' : ArgParser) (bad : Str) (h : UnknownOption p bad)
    (he : ArgParser.Evolves p p') : UnknownOption p' bad := by
  obtain ⟨_, e2, _, e4⟩ := he.evolves_fields
  rcases h with ⟨name, h0, h1, h2⟩ | ⟨z, h0, h1, h2⟩
  · exact Or.inl ⟨name, h0, h1, mapFind_eq_none_of_keys _ _ _ e4 h2⟩
  · exact Or.inr ⟨z, h0, h1, by rw [e2]; exact h2⟩

/-- C3 (amended): when the token sequence contains an unknown option token `bad`
(`--bogus` with an unregistered name, or `-z` with an unregistered character),
`Parse` behaves as the token loop does on the tokens `pre` before it: if they are
all consumed, `Parse` returns false with exactly the registry they left; if one
of them already left `Parse` (an error, or the help trigger, the only way to
`true`), that verdict and registry stand; if one of them terminated the process
in a conversion, `Parse` does not return.  Nothing is stored from `bad` or from
the tokens `post` after it. -/
theorem unknown_option_stops (p : ArgParser) (prog bad : Str) (pre post : List Str)
    (h : UnknownOption p bad) :
    p.Parse (prog :: (pre ++ bad :: post)) =
      (match parseLoop p 0 pre with
      | Step.next p' _ => Outcome.returned false p'
      | Step.ret b p' => Outcome.returned b p'
      | Step.exit => Outcome.exited) ∧
    ∀ p', p.Parse (prog :: (pre ++ bad :: post)) = Outcome.returned true p' →
      p'.Help = true := by
  have key : p.Parse (prog :: (pre ++ bad :: post)) =
      (match parseLoop p 0 pre with
      | Step.next p' _ => Outcome.returned false p'
      | Step.ret b p' => Outcome.returned b p'
      | Step.exit => Outcome.exited) := by
    unfold ArgParser.Parse
    simp only [List.drop_succ_cons, List.drop_zero]
    rw [parseLoop_append_dash p 0 pre post bad (UnknownOption.dash p bad h) (Nat.zero_le _)]
    have hs := parseLoop_spec p 0 pre
    cases hl : parseLoop p 0 pre with
    | next p' n =>
      rw [hl] at hs
      simp only [parseLoop_zero,
        parseToken_unknown p' bad post (UnknownOption.evolves p p' bad h hs)]
    | ret b p' => rfl
    | exit => rfl
  refine ⟨key, ?_⟩
  intro p' hp
  rw [key] at hp
  have hs := parseLoop_spec p 0 pre
  cases hl : parseLoop p 0 pre with
  | next q n => rw [hl] at hp; simp at hp
  | exit => rw [hl] at hp; simp at hp
  | ret b q =>
    rw [hl] at hp hs
    simp only [Outcome.returned.injEq] at hp
    obtain ⟨h1, h2⟩ := hp
    subst h1 h2
    obtain ⟨p0, _, e0⟩ := hs
    rw [e0]
    rfl

theorem numParser_unknown_bogus : UnknownOption numParser "--bogus".toList :=
  Or.inl ⟨"bogus".toList, rfl, by decide, rfl⟩

theorem unknown_option_stops_witness :
    numParser.Parse ("prog".toList ::
        (["--num".toList, "5".toList] ++ "--bogus".toList :: ["x".toList])) =
      Outcome.returned false numParserAfter :=
  (unknown_option_stops numParser "prog".toList "--bogus".toList
    ["--num".toList, "5".toList] ["x".toList] numParser_unknown_bogus).1

/-- C3 as stated fails: with an integer option `num`, the tokens
`prog --num x --bogus` contain the unknown option `--bogus` and no help trigger,
yet `Parse` does not return false: the conversion of `x` terminates the
process, so `Parse` does not return at all. -/
theorem unknown_option_counterexample :
    UnknownOption numParser "--bogus".toList ∧
    ¬ ∃ b p', numParser.Parse
        ["prog".toList, "--num".toList, "x".toList, "--bogus".toList] =
      Outcome.returned b p' := by
  refine ⟨Or.inl ⟨"bogus".toList, rfl, by decide, rfl⟩, ?_⟩
  rintro ⟨b, p', h⟩
  have e : numParser.Parse ["prog".toList, "--num".toList, "x".toList, "--bogus".toList] =
      Outcome.exited := rfl
  rw [e] at h
  exact Outcome.noConfusion h

/-- C2: with a help trigger registered under the alias `h` and the long name
`help`, `Parse` of `[prog, "-h"] ++ rest` and of `[prog, "--help"] ++ rest`
returns true with the help flag set and the registry otherwise untouched (no
value stored), for every `rest` and whatever the other specs are (the
validation pass does not run). -/
theorem help_short_circuits (p : ArgParser) (prog : Str) (rest : List Str) (a : ArgBase)
    (hn : mapFind p.arg_names_ 'h' = some "help".toList)
    (ha : mapFind p.arguments_ "help".toList = some a)
    (hh : a.isHelp = true) (hf : a.isFlag = false) :
    p.Parse (prog :: "-h".toList :: rest) = Outcome.returned true { p with help_flag_ := true } ∧
    p.Parse (prog :: "--help".toList :: rest) =
      Outcome.returned true { p with help_flag_ := true } := by
  have e1 : "help".toList = ['h', 'e', 'l', 'p'] := rfl
  rw [e1] at hn ha
  constructor
  · simp [ArgParser.Parse, parseLoop_zero, parseToken, charAt, shortChain, hn, ha, hh, hf]
  · simp [ArgParser.Parse, parseLoop_zero, parseToken, charAt, parseLong, hn, ha, hh, hf]

theorem help_short_circuits_witness :
    validate helpParser = false ∧
    helpParser.Parse ("prog".toList :: "-h".toList :: ["--bogus".toList]) =
      Outcome.returned true { helpParser with help_flag_ := true } ∧
    helpParser.Parse ("prog".toList :: "--help".toList :: ["--bogus".toList]) =
      Outcome.returned true { helpParser with help_flag_ := true } :=
  ⟨by decide, help_short_circuits helpParser "prog".toList ["--bogus".toList]
    (ArgBase.bool (Arg.ctor 'h' "help".toList "Show help message".toList false true convertTrue))
    rfl rfl rfl rfl⟩

theorem numParser_constructible : numParser.Constructible := by
  intro e he
  simp only [numParser, ArgParser.AddIntArgumentShort, ArgParser.AddArgument, ArgParser.ctor,
    mapAssign, List.mem_singleton] at he
  subst he
  exact Arg.Reachable.ctor _ _ _ _ _ _

theorem parse_true_all_required_good_witness :
    numParser.Parse ["prog".toList, "--num".toList, "5".toList] =
      Outcome.returned true numParserAfter ∧
    ∀ e ∈ numParserAfter.arguments_, e.2.isFlag = false → e.2.isHelp = false →
      e.2.isGood = true :=
  ⟨rfl, parse_true_all_required_good numParser numParserAfter
    ["prog".toList, "--num".toList, "5".toList] numParser_constructible rfl rfl⟩

theorem parse_prog_only (p : ArgParser) (prog : Str) :
    p.Parse [prog] = Outcome.returned (validate p) p := rfl

/-- A registry whose only spec is a freshly declared single-valued option
(integer, string or boolean; not a flag, not the help trigger) and the token
sequence `[prog]`: `Parse` returns false when no default was declared, and
returns true when the same spec was declared with `Default(d)`; the stored
sequence is then `[d]` and the read-back at index 0 is `d`. -/
theorem missing_required_vs_default (pn prog ln desc : Str) (sn : Char) :
    (∀ (conv : Str → Option Int) (d : Int),
      (soleInt pn sn ln desc conv).Parse [prog] =
        Outcome.returned false (soleInt pn sn ln desc conv) ∧
      ((soleInt pn sn ln desc conv).chainInt ln (fun a => a.Default d)).Parse [prog] =
        Outcome.returned true ((soleInt pn sn ln desc conv).chainInt ln (fun a => a.Default d)) ∧
      ((soleInt pn sn ln desc conv).chainInt ln (fun a => a.Default d)).stored ln =
        some [Value.int d] ∧
      ((soleInt pn sn ln desc conv).chainInt ln (fun a => a.Default d)).GetIntValue ln 0 = some d) ∧
    (∀ (conv : Str → Option Str) (d : Str),
      (soleString pn sn ln desc conv).Parse [prog] =
        Outcome.returned false (soleString pn sn ln desc conv) ∧
      ((soleString pn sn ln desc conv).chainString ln (fun a => a.Default d)).Parse [prog] =
        Outcome.returned true ((soleString pn sn ln desc conv).chainString ln (fun a => a.Default
            d)) ∧
      ((soleString pn sn ln desc conv).chainString ln (fun a => a.Default d)).stored ln =
        some [Value.string d] ∧
      ((soleString pn sn ln desc conv).chainString ln (fun a => a.Default d)).GetStringValue ln 0 =
          some d) ∧
    (∀ (conv : Str → Option Bool) (d : Bool),
      (soleBool pn sn ln desc conv).Parse [prog] =
        Outcome.returned false (soleBool pn sn ln desc conv) ∧
      ((soleBool pn sn ln desc conv).chainBool ln (fun a => a.Default d)).Parse [prog] =
        Outcome.returned true ((soleBool pn sn ln desc conv).chainBool ln (fun a => a.Default d)) ∧
      ((soleBool pn sn ln desc conv).chainBool ln (fun a => a.Default d)).stored ln =
        some [Value.bool d] ∧
      ((soleBool pn sn ln desc conv).chainBool ln (fun a => a.Default d)).GetBoolValue ln 0 = some
          d) := by
  refine ⟨?_, ?_, ?_⟩
  · intro conv d
    simp [soleInt, soleString, soleBool, parse_prog_only, validate, isMissing,
        ArgParser.AddArgument, ArgParser.ctor, mapAssign,
      ArgParser.chainInt, mapFind, ArgParser.setArg, ArgParser.stored, ArgParser.GetIntValue,
      ArgBase.isGood, ArgBase.isHelp, ArgBase.isFlag, ArgBase.isEmpty, Arg.isGood, Arg.isHelp,
      Arg.isFlag, Arg.isEmpty, Arg.ctor, Arg.Default, Arg.store, ArgBase.values, Arg.GetValue]
  · intro conv d
    simp [soleInt, soleString, soleBool, parse_prog_only, validate, isMissing,
        ArgParser.AddArgument, ArgParser.ctor, mapAssign,
      ArgParser.chainString, mapFind, ArgParser.setArg, ArgParser.stored,
      ArgParser.GetStringValue,
      ArgBase.isGood, ArgBase.isHelp, ArgBase.isFlag, ArgBase.isEmpty, Arg.isGood, Arg.isHelp,
      Arg.isFlag, Arg.isEmpty, Arg.ctor, Arg.Default, Arg.store, ArgBase.values, Arg.GetValue]
  · intro conv d
    simp [soleInt, soleString, soleBool, parse_prog_only, validate, isMissing,
        ArgParser.AddArgument, ArgParser.ctor, mapAssign,
      ArgParser.chainBool, mapFind, ArgParser.setArg, ArgParser.stored, ArgParser.GetBoolValue,
      ArgBase.isGood, ArgBase.isHelp, ArgBase.isFlag, ArgBase.isEmpty, Arg.isGood, Arg.isHelp,
      Arg.isFlag, Arg.isEmpty, Arg.ctor, Arg.Default, Arg.store, ArgBase.values, Arg.GetValue]

theorem ArgParser.Evolves.mem_not_good {p p' : ArgParser} (h : ArgParser.Evolves p p')
    (e : Str × ArgBase) (he : e ∈ p'.arguments_) (hg : e.2.isGood = false) :
    e ∈ p.arguments_ := by
  induction h with
  | refl p => exact he
  | step p p' name a a' value b hm hv _ ih =>
    rcases mem_mapAssign _ _ _ e (ih he) with h1 | h1
    · exact h1
    · rw [h1, (ArgBase.AddValue_fields a a' value b hv).1] at hg
      exact absurd hg (by simp)

/-- C5 (amended): when the token loop consumes all tokens (no help match, no
error, no fatal conversion) and some registered spec that is neither a flag nor
the help trigger is still not marked usable, `Parse` returns false; that spec is
an entry the tokens never touched.  The mark is unset after the constructor and
is left unset by `MultiValue`, `Positional` and `StoreValues`; it is set by
`Default`, by `StoreValue` and by every `AddValue` call that returns. -/
theorem missing_unmarked_spec_fails (p p' : ArgParser) (argv : List Str) (k : Nat)
    (e : Str × ArgBase) (hc : p.Constructible)
    (hl : parseLoop p 0 (argv.drop 1) = Step.next p' k)
    (he : e ∈ p'.arguments_) (hf : e.2.isFlag = false) (hh : e.2.isHelp = false)
    (hg : e.2.isGood = false) :
    p.Parse argv = Outcome.returned false p' ∧ e ∈ p.arguments_ ∧
    (∀ (α : Type) (x : Arg α) (m : Int) (c : List α) (d : α), x.isGood = false →
      x.MultiValue.isGood = false ∧ (x.MultiValueMin m).isGood = false ∧
      x.Positional.isGood = false ∧ (x.StoreValues c).isGood = false ∧
      (x.Default d).isGood = true ∧ (x.StoreValue d).isGood = true) := by
  have hs := parseLoop_spec p 0 (argv.drop 1)
  rw [hl] at hs
  have hinv := ArgParser.Evolves.evolves_inv hs
    (fun e he => ArgBase.Reachable.base_inv _ (hc e he))
  refine ⟨?_, ArgParser.Evolves.mem_not_good hs e he hg, ?_⟩
  · unfold ArgParser.Parse
    rw [hl]
    have hE : e.2.isEmpty = true := by
      cases hE : e.2.isEmpty with
      | true => rfl
      | false => rw [hinv e he hE] at hg; exact absurd hg (by simp)
    have hv : validate p' = false := by
      simp only [validate, Bool.not_eq_false', List.any_eq_true]
      exact ⟨e, he, by simp [isMissing, hf, hh, hg, hE]⟩
    simp only [hv]
  · intro α x m c d hx
    simp only [Arg.isGood] at hx
    simp [Arg.isGood, Arg.MultiValue, Arg.MultiValueMin, Arg.Positional, Arg.StoreValues,
      Arg.Default, Arg.StoreValue, hx]

theorem missing_unmarked_spec_fails_witness :
    numParser.Parse ["prog".toList] = Outcome.returned false numParser ∧
    ("num".toList, ArgBase.int (Arg.ctor 'n' "num".toList [] false false convertInt)) ∈
      numParser.arguments_ :=
  ⟨(missing_unmarked_spec_fails numParser numParser ["prog".toList] 0
      ("num".toList, ArgBase.int (Arg.ctor 'n' "num".toList [] false false convertInt))
      numParser_constructible rfl (by simp [numParser, ArgParser.AddIntArgumentShort,
        ArgParser.AddArgument, ArgParser.ctor, mapAssign]) rfl rfl rfl).1,
   (missing_unmarked_spec_fails numParser numParser ["prog".toList] 0
      ("num".toList, ArgBase.int (Arg.ctor 'n' "num".toList [] false false convertInt))
      numParser_constructible rfl (by simp [numParser, ArgParser.AddIntArgumentShort,
        ArgParser.AddArgument, ArgParser.ctor, mapAssign]) rfl rfl rfl).2.1⟩

/-- C5 as stated fails: an integer option bound with `StoreValue` is neither a
flag nor the help trigger, had no default applied and no value added, and the
tokens `[prog]` match no help trigger; yet `Parse` returns true. -/
theorem missing_spec_counterexample :
    storeParser.Parse ["prog".toList] = Outcome.returned true storeParser ∧
    (∃ a, mapFind storeParser.arguments_ "num".toList = some a ∧ a.isFlag = false ∧
      a.isHelp = false ∧ a.isDefault = false ∧ a.values = []) :=
  ⟨rfl, _, rfl, rfl, rfl, rfl, rfl⟩

theorem splitString_eq (name v : Str) (hn : '=' ∉ name) :
    splitString (name ++ '=' :: v) '=' = (name, v) := by
  have h1 : (name ++ '=' :: v).contains '=' = true := by simp
  have h2 : ∀ (l : Str), '=' ∉ l →
      (l ++ '=' :: v).takeWhile (fun c => c != '=') = l ∧
      (l ++ '=' :: v).dropWhile (fun c => c != '=') = '=' :: v := by
    intro l
    induction l with
    | nil => intro _; simp [List.takeWhile, List.dropWhile]
    | cons c l ih =>
      intro hl
      simp only [List.mem_cons, not_or] at hl
      obtain ⟨hc, hl⟩ := hl
      have hc2 : (c != '=') = true := by
        simp only [bne_iff_ne, ne_eq]
        exact fun h => hc h.symm
      obtain ⟨i1, i2⟩ := ih hl
      simp [List.takeWhile, List.dropWhile, hc2, i1, i2]
  obtain ⟨i1, i2⟩ := h2 name hn
  simp only [splitString, h1, if_true, i1, i2, List.drop_succ_cons, List.drop_zero]

theorem Arg.store_values {α : Type} (a : Arg α) (val : α) :
    (∀ w, a.store_func_ ≠ StoreFunc.scalar w) → (a.store val).values_ = a.values_ ++ [val] := by
  intro h
  unfold Arg.store
  cases hs : a.store_func_ with
  | own => rfl
  | scalar w => exact absurd hs (h w)
  | container c => rfl

theorem Arg.AddValue_accepted {α : Type} (arith : Option (α → Int)) (a : Arg α) (v : Str) (val : α)
    (hc : a.convert_func_ v = some val) (hm : a.min_count_ = 0) :
    a.AddValue arith v = some (true, ({ a with is_good_ := true } : Arg α).store val) := by
  unfold Arg.AddValue
  simp only [hc]
  cases arith with
  | none => rfl
  | some toInt => simp [hm]

theorem ArgBase.AddValue_accept (a : ArgBase) (v : Str) (val : Value)
    (hc : a.convert v = some val) (hm : a.minCount = 0) :
    ∃ a', a.AddValue v = some (true, a') ∧
      (a.keepsValues = true → a'.values = a.values ++ [val]) := by
  cases a with
  | int x =>
    simp only [ArgBase.convert, Option.map_eq_some'] at hc
    obtain ⟨w, hw, rfl⟩ := hc
    refine ⟨ArgBase.int (({ x with is_good_ := true } : Arg Int).store w), ?_, ?_⟩
    · simp only [ArgBase.AddValue, Arg.AddValue_accepted _ x v w hw hm, ArgBase.liftResult]
    · intro hk
      simp only [ArgBase.values]
      rw [Arg.store_values]
      · simp
      · intro w2 h2
        simp only [ArgBase.keepsValues] at hk
        simp only at h2
        rw [h2] at hk
        simp at hk
  | string x =>
    simp only [ArgBase.convert, Option.map_eq_some'] at hc
    obtain ⟨w, hw, rfl⟩ := hc
    refine ⟨ArgBase.string (({ x with is_good_ := true } : Arg Str).store w), ?_, ?_⟩
    · simp only [ArgBase.AddValue, Arg.AddValue_accepted _ x v w hw hm, ArgBase.liftResult]
    · intro hk
      simp only [ArgBase.values]
      rw [Arg.store_values]
      · simp
      · intro w2 h2
        simp only [ArgBase.keepsValues] at hk
        simp only at h2
        rw [h2] at hk
        simp at hk
  | bool x =>
    simp only [ArgBase.convert, Option.map_eq_some'] at hc
    obtain ⟨w, hw, rfl⟩ := hc
    refine ⟨ArgBase.bool (({ x with is_good_ := true } : Arg Bool).store w), ?_, ?_⟩
    · simp only [ArgBase.AddValue, Arg.AddValue_accepted _ x v w hw hm, ArgBase.liftResult]
    · intro hk
      simp only [ArgBase.values]
      rw [Arg.store_values]
      · simp
      · intro w2 h2
        simp only [ArgBase.keepsValues] at hk
        simp only at h2
        rw [h2] at hk
        simp at hk

theorem Arg.Reachable.min_multi {α : Type} (arith : Option (α → Int)) (a : Arg α)
    (h : Arg.Reachable arith a) : a.is_multivalue_ = false → a.min_count_ = 0 := by
  induction h with
  | ctor => intro _; rfl
  | call a a' _ hc ih =>
    cases hc with
    | multiValue => intro h; simp [Arg.MultiValue] at h
    | multiValueMin value => intro h; simp [Arg.MultiValueMin] at h
    | positional => simpa [Arg.Positional] using ih
    | default value =>
      have := Arg.store_fields ({ a with is_default_ := true } : Arg α) value
      simp only [Arg.Default]
      rw [this.2.2.2.2.1, this.2.2.2.2.2.1]
      exact ih
    | storeValue other_value => simpa [Arg.StoreValue] using ih
    | storeValues c => simpa [Arg.StoreValues] using ih
    | addValue _ _ _ hv =>
      have := Arg.AddValue_keeps arith _ _ _ _ hv
      rw [this.2.2.2.2.1, this.2.2.2.2.2.1]
      exact ih

theorem ArgBase.Reachable.min_single (a : ArgBase) (h : a.Reachable)
    (hm : a.isMultiValue = false) : a.minCount = 0 := by
  cases a with
  | int x => exact Arg.Reachable.min_multi _ x h hm
  | string x => exact Arg.Reachable.min_multi _ x h hm
  | bool x => exact Arg.Reachable.min_multi _ x h hm

theorem parseLong_eq_form (p : ArgParser) (name v : Str) (rest : List Str) (a : ArgBase)
    (ha : mapFind p.arguments_ name = some a) (hn : '=' ∉ name) :
    parseLong p (name ++ '=' :: v) rest =
      match a.AddValue v with
      | none => Step.exit
      | some (false, a') => Step.ret false (p.setArg name a')
      | some (true, a') => Step.next (p.setArg name a') 0 := by
  have h1 : (name ++ '=' :: v).contains '=' = true := by simp
  simp only [parseLong, h1, if_true, splitString_eq name v hn, ha]

theorem parseLong_value (p : ArgParser) (name : Str) (rest : List Str) (a : ArgBase)
    (ha : mapFind p.arguments_ name = some a) (hn : '=' ∉ name)
    (hf : a.isFlag = false) (hh : a.isHelp = false) :
    parseLong p name rest =
      match takeValue a rest with
      | none => Step.exit
      | some (false, a', _) => Step.ret false (p.setArg name a')
      | some (true, a', n) => Step.next (p.setArg name a') n := by
  simp [parseLong, hn, ha, hf, hh]

theorem parseToken_long (p : ArgParser) (name : Str) (rest : List Str) :
    parseToken p ('-' :: '-' :: name) rest = parseLong p name rest := by
  simp [parseToken, charAt]

theorem takeValue_single (a : ArgBase) (v : Str) (hv : charAt v 0 ≠ '-') :
    takeValue a [v] =
      match a.AddValue v with
      | none => none
      | some (false, a') => some (false, a', 1)
      | some (true, a') => some (true, a', 1) := by
  simp only [takeValue, bne_iff_ne, ne_eq, hv, not_false_eq_true, if_true]
  cases h : a.AddValue v with
  | none => rfl
  | some r =>
    obtain ⟨b, a'⟩ := r
    cases b <;> rfl

/-- C6 (amended): for a registered spec that is neither a flag nor the help
trigger, with a long name `name` without `=`, and for every value string `v`
that does not begin with `-`: `Parse` of `[prog, "--name=v"]` and of
`[prog, "--name", v]` have the same outcome (verdict and registry, or both
terminate in the conversion).  When the spec is single-valued, in a state the
builder interface can produce and not bound by `StoreValue`, and the converter
yields `val` for `v`, the stored sequence afterwards is the one before with
`val` appended (exactly `[val]` when nothing was stored before). -/
theorem eq_form_matches_separate_value (p : ArgParser) (prog name v : Str) (a : ArgBase)
    (ha : mapFind p.arguments_ name = some a) (hf : a.isFlag = false) (hh : a.isHelp = false)
    (hn : '=' ∉ name) (hv : charAt v 0 ≠ '-') :
    p.Parse [prog, '-' :: '-' :: (name ++ '=' :: v)] = p.Parse [prog, '-' :: '-' :: name, v] ∧
    (∀ val, a.Reachable → a.isMultiValue = false → a.keepsValues = true →
      a.convert v = some val →
      (p.Parse [prog, '-' :: '-' :: name, v]).stored name = some (a.values ++ [val]) ∧
      (p.Parse [prog, '-' :: '-' :: (name ++ '=' :: v)]).stored name =
        some (a.values ++ [val])) := by
  have key : p.Parse [prog, '-' :: '-' :: (name ++ '=' :: v)] =
      p.Parse [prog, '-' :: '-' :: name, v] := by
    simp only [ArgParser.Parse, List.drop_succ_cons, List.drop_zero, parseLoop_zero,
      parseToken_long, parseLong_eq_form p name v [] a ha hn,
      parseLong_value p name [v] a ha hn hf hh, takeValue_single a v hv]
    cases h : a.AddValue v with
    | none => rfl
    | some r =>
      obtain ⟨b, a'⟩ := r
      cases b
      · rfl
      · simp only [parseLoop_nil, parseLoop_skip]
  refine ⟨key, ?_⟩
  intro val hr hm hk hc
  rw [key]
  obtain ⟨a', h1, h2⟩ := ArgBase.AddValue_accept a v val hc
    (ArgBase.Reachable.min_single a hr hm)
  simp only [ArgParser.Parse, List.drop_succ_cons, List.drop_zero, parseLoop_zero,
    parseToken_long, parseLong_value p name [v] a ha hn hf hh, takeValue_single a v hv, h1,
    parseLoop_nil, parseLoop_skip, Outcome.stored, ArgParser.stored, ArgParser.setArg,
    mapFind_mapAssign_self, Option.map_some', h2 hk, and_self]

theorem eq_form_matches_separate_value_witness :
    nameParser.Parse ["prog".toList, "--name=v".toList] =
      nameParser.Parse ["prog".toList, "--name".toList, "v".toList] :=
  (eq_form_matches_separate_value nameParser "prog".toList "name".toList "v".toList
    (ArgBase.string (Arg.ctor ' ' "name".toList [] false false convertString))
    rfl rfl rfl (by decide) (by decide)).1

/-- C6 as stated fails for a value that begins with `-`: for the string option
`name`, `--name=-x` stores `-x` and `Parse` returns true, while `--name -x`
stores nothing and `Parse` returns false. -/
theorem eq_form_counterexample :
    (nameParser.Parse ["prog".toList, "--name=-x".toList]).verdict = some true ∧
    (nameParser.Parse ["prog".toList, "--name=-x".toList]).stored "name".toList =
      some [Value.string "-x".toList] ∧
    (nameParser.Parse ["prog".toList, "--name".toList, "-x".toList]).verdict = some false ∧
    (nameParser.Parse ["prog".toList, "--name".toList, "-x".toList]).stored "name".toList =
      some [] := by
  decide

theorem ArgParser.setArg_names (p : ArgParser) (name : Str) (a : ArgBase) :
    (p.setArg name a).arg_names_ = p.arg_names_ ∧ (p.setArg name a).help_flag_ = p.help_flag_ ∧
    (p.setArg name a).program_name_ = p.program_name_ := ⟨rfl, rfl, rfl⟩

theorem ArgParser.find_setArg_self (p : ArgParser) (name : Str) (a : ArgBase) :
    mapFind (p.setArg name a).arguments_ name = some a := mapFind_mapAssign_self _ _ _

theorem ArgParser.find_setArg_ne (p : ArgParser) (name other : Str) (a : ArgBase)
    (h : name ≠ other) :
    mapFind (p.setArg name a).arguments_ other = mapFind p.arguments_ other :=
  mapFind_mapAssign_ne _ _ _ _ h

/-- C10 at the failing input: the positional integer spec `level` has the
threshold 5 and no default.  `AddValue("3")` returns false and stores nothing,
and `Parse` returns false when `3` arrives as `--level 3`, `--level=3`, `-l 3`
or `-l=3`; but `Parse` of `[prog, "3"]`, where `3` arrives as a positional
token, returns true with nothing stored. -/
theorem below_minimum_positional_accepted :
    ((mapFind levelParser.arguments_ "level".toList).bind
        (fun a => (a.AddValue "3".toList).map (fun r => (r.1, r.2.values)))) =
      some (false, []) ∧
    (levelParser.Parse ["prog".toList, "--level".toList, "3".toList]).verdict = some false ∧
    (levelParser.Parse ["prog".toList, "--level=3".toList]).verdict = some false ∧
    (levelParser.Parse ["prog".toList, "-l".toList, "3".toList]).verdict = some false ∧
    (levelParser.Parse ["prog".toList, "-l=3".toList]).verdict = some false ∧
    (levelParser.Parse ["prog".toList, "3".toList]).verdict = some true ∧
    (levelParser.Parse ["prog".toList, "3".toList]).stored "level".toList = some [] ∧
    (levelParser.Parse ["prog".toList, "3".toList]).help = some false := by
  decide

/-- C19: for every registry whose help flag is false before the call and every
token sequence: when `Parse` returns false, `Help()` is still false afterwards;
and when `Help()` is true after a call that returned, the verdict was true. -/
theorem help_only_on_success (p p' : ArgParser) (argv : List Str) (b : Bool)
    (h0 : p.Help = false) (h : p.Parse argv = Outcome.returned b p') :
    (b = false → p'.Help = false) ∧ (p'.Help = true → b = true) := by
  have key : b = false → p'.Help = false := by
    intro hb
    subst hb
    have hs := parseLoop_spec p 0 (argv.drop 1)
    unfold ArgParser.Parse at h
    cases hl : parseLoop p 0 (argv.drop 1) with
    | exit => rw [hl] at h; simp at h
    | ret b2 q =>
      rw [hl] at h hs
      simp only [Outcome.returned.injEq] at h
      obtain ⟨h1, h2⟩ := h
      subst h1 h2
      have e := (ArgParser.Evolves.evolves_fields hs).1
      simp only [ArgParser.Help] at h0 ⊢
      rw [e, h0]
    | next q n =>
      rw [hl] at h hs
      simp only [Outcome.returned.injEq] at h
      obtain ⟨_, h2⟩ := h
      subst h2
      have e := (ArgParser.Evolves.evolves_fields hs).1
      simp only [ArgParser.Help] at h0 ⊢
      rw [e, h0]
  refine ⟨key, ?_⟩
  intro hh
  cases b with
  | true => rfl
  | false => rw [key rfl] at hh; exact absurd hh (by simp)

theorem help_only_on_success_witness :
    (false = false → numParser.Help = false) ∧ (numParser.Help = true → false = true) :=
  help_only_on_success numParser numParser ["prog".toList] false rfl rfl

/-- C20: in every state of a spec reachable from its constructor by calls of
`MultiValue`, `Positional`, `Default`, `StoreValue`, `StoreValues` and
`AddValue`, a non-empty stored sequence implies `isGood`; hence the validation
test `!isGood && !isHelp && isEmpty && !isFlag` of `Parse` has the same value as
`!isGood && !isHelp && !isFlag`. -/
theorem nonempty_implies_good (a : ArgBase) (h : a.Reachable) :
    (a.isEmpty = false → a.isGood = true) ∧
    isMissing a = (!a.isGood && !a.isHelp && !a.isFlag) := by
  have hi : a.isEmpty = false → a.isGood = true := ArgBase.Reachable.base_inv a h
  refine ⟨hi, ?_⟩
  unfold isMissing
  cases hE : a.isEmpty with
  | true => simp
  | false => simp [hi hE]

theorem nonempty_implies_good_witness :
    (numWithDefault.isEmpty = false → numWithDefault.isGood = true) ∧
    isMissing numWithDefault =
      (!numWithDefault.isGood && !numWithDefault.isHelp && !numWithDefault.isFlag) :=
  nonempty_implies_good numWithDefault
    (Arg.Reachable.call _ _ (Arg.Reachable.ctor 'n' "num".toList [] false false convertInt)
      (Arg.Call.default _ 7))

/-- C14 (amended): for a name that is not a registered long name, and for a name
registered with a different value type, and for every index: `GetIntValue`
returns the index it was given (0 at the default index 0), `GetStringValue`
returns the string `"0"`, and `GetBoolValue` and `GetFlag` return false. -/
theorem getter_sentinels (p : ArgParser) (name : Str) (index : Int) :
    (mapFind p.arguments_ name = none →
      p.GetIntValue name index = some index ∧ p.GetStringValue name index = some "0".toList ∧
      p.GetBoolValue name index = some false ∧ p.GetFlag name index = some false) ∧
    (∀ x : Arg Int, mapFind p.arguments_ name = some (ArgBase.int x) →
      p.GetStringValue name index = some "0".toList ∧
      p.GetBoolValue name index = some false ∧ p.GetFlag name index = some false) ∧
    (∀ x : Arg Str, mapFind p.arguments_ name = some (ArgBase.string x) →
      p.GetIntValue name index = some index ∧
      p.GetBoolValue name index = some false ∧ p.GetFlag name index = some false) ∧
    (∀ x : Arg Bool, mapFind p.arguments_ name = some (ArgBase.bool x) →
      p.GetIntValue name index = some index ∧
      p.GetStringValue name index = some "0".toList) := by
  refine ⟨?_, ?_, ?_, ?_⟩
  · intro h
    simp [ArgParser.GetIntValue, ArgParser.GetStringValue, ArgParser.GetBoolValue,
      ArgParser.GetFlag, h]
  · intro x h
    simp [ArgParser.GetStringValue, ArgParser.GetBoolValue, ArgParser.GetFlag, h]
  · intro x h
    simp [ArgParser.GetIntValue, ArgParser.GetBoolValue, ArgParser.GetFlag, h]
  · intro x h
    simp [ArgParser.GetIntValue, ArgParser.GetStringValue, h]

/-- C14 as stated fails: on the registry with the single integer option `num`,
the unregistered name `other` read at index 3 gives 3 from `GetIntValue`, and
`GetStringValue` gives `"0"`, which is not the empty string, for the unregistered
name and for `num` (registered with another value type). -/
theorem getter_sentinels_counterexample :
    (mapFind numParser.arguments_ "other".toList).isNone = true ∧
    numParser.GetIntValue "other".toList 3 = some 3 ∧
    numParser.GetIntValue "other".toList 3 ≠ some 0 ∧
    numParser.GetStringValue "other".toList 0 = some ['0'] ∧
    numParser.GetStringValue "other".toList 0 ≠ some [] ∧
    numParser.GetStringValue "num".toList 0 ≠ some [] := by
  decide

/-- C17 (amended): a declaration through a long-name-only overload
(`AddIntArgument`, `AddStringArgument`, `AddBoolArgument`, `AddFlag` without a
short name) passes the space character as short name, and the alias index gets
the entry from the space character to the new long name; the aliases of all
other characters are untouched, so exactly the short-form tokens made with a
space resolve to the option through this declaration. -/
theorem long_only_registers_space (p : ArgParser) (ln desc : Str) (flag help : Bool) :
    (mapFind (p.AddIntArgument ln desc flag help).arg_names_ ' ' = some ln ∧
      ∀ c, c ≠ ' ' → mapFind (p.AddIntArgument ln desc flag help).arg_names_ c =
        mapFind p.arg_names_ c) ∧
    (mapFind (p.AddStringArgument ln desc flag help).arg_names_ ' ' = some ln ∧
      ∀ c, c ≠ ' ' → mapFind (p.AddStringArgument ln desc flag help).arg_names_ c =
        mapFind p.arg_names_ c) ∧
    (mapFind (p.AddBoolArgument ln desc flag help).arg_names_ ' ' = some ln ∧
      ∀ c, c ≠ ' ' → mapFind (p.AddBoolArgument ln desc flag help).arg_names_ c =
        mapFind p.arg_names_ c) ∧
    (mapFind (p.AddFlag ln desc).arg_names_ ' ' = some ln ∧
      ∀ c, c ≠ ' ' → mapFind (p.AddFlag ln desc).arg_names_ c = mapFind p.arg_names_ c) := by
  refine ⟨⟨?_, ?_⟩, ⟨?_, ?_⟩, ⟨?_, ?_⟩, ⟨?_, ?_⟩⟩
  · exact mapFind_mapAssign_self _ _ _
  · intro c hc
    exact mapFind_mapAssign_ne _ _ _ _ (Ne.symm hc)
  · exact mapFind_mapAssign_self _ _ _
  · intro c hc
    exact mapFind_mapAssign_ne _ _ _ _ (Ne.symm hc)
  · exact mapFind_mapAssign_self _ _ _
  · intro c hc
    exact mapFind_mapAssign_ne _ _ _ _ (Ne.symm hc)
  · exact mapFind_mapAssign_self _ _ _
  · intro c hc
    exact mapFind_mapAssign_ne _ _ _ _ (Ne.symm hc)

/-- C17 as stated fails: after `AddIntArgument("num")` on an empty registry the
alias index has the new entry from the space character to `num`, and the
short-form token made of a dash and a space resolves to that option:
`Parse` of `[prog, "- ", "5"]` returns true and stores 5 in `num`. -/
theorem long_only_counterexample :
    (ArgParser.ctor "prog".toList).arg_names_ = [] ∧
    longOnlyParser.arg_names_ = [(' ', "num".toList)] ∧
    (longOnlyParser.Parse ["prog".toList, ['-', ' '], "5".toList]).verdict = some true ∧
    (longOnlyParser.Parse ["prog".toList, ['-', ' '], "5".toList]).stored "num".toList =
      some [Value.int 5] := by
  decide

theorem Arg.AddValue_container {α : Type} (arith : Option (α → Int)) (a a' : Arg α)
    (c : List α) (v : Str) (b : Bool) (hs : a.store_func_ = StoreFunc.container c)
    (h : a.AddValue arith v = some (b, a')) :
    (b = false ∧ a'.values_ = a.values_ ∧ a'.store_func_ = StoreFunc.container c) ∨
    (b = true ∧ ∃ val, a.convert_func_ v = some val ∧ a'.values_ = a.values_ ++ [val] ∧
      a'.store_func_ = StoreFunc.container (c ++ [val])) := by
  obtain ⟨val, hc, h1 | h1⟩ := Arg.AddValue_spec arith a a' v b h
  · left
    obtain ⟨hb, ha⟩ := h1
    subst ha
    exact ⟨hb, rfl, hs⟩
  · right
    obtain ⟨hb, ha⟩ := h1
    subst ha
    refine ⟨hb, val, hc, ?_, ?_⟩
    · simp [Arg.store, hs]
    · simp [Arg.store, hs]

/-- C16: for a spec bound to a caller-owned sequence `c` with `StoreValues(c)`:
an `AddValue` that succeeds appends the converted value both to `c` and to the
spec's own stored sequence, an `AddValue` rejected by the threshold appends to
neither; so after any series of `AddValue` calls the elements appended to `c`
are, in order, exactly the elements appended to the spec's own sequence. -/
theorem store_values_mirrors {α : Type} (arith : Option (α → Int)) (a a' : Arg α)
    (c : List α) (h : Arg.AddValues arith (a.StoreValues c) a') :
    (∃ added, a'.values_ = a.values_ ++ added ∧
      a'.store_func_ = StoreFunc.container (c ++ added)) ∧
    (∀ v a1, (a.StoreValues c).AddValue arith v = some (true, a1) →
      ∃ val, a.convert_func_ v = some val ∧ a1.values_ = a.values_ ++ [val] ∧
        a1.store_func_ = StoreFunc.container (c ++ [val])) ∧
    (∀ v a1, (a.StoreValues c).AddValue arith v = some (false, a1) →
      a1.values_ = a.values_ ∧ a1.store_func_ = StoreFunc.container c) := by
  refine ⟨?_, ?_, ?_⟩
  · have gen : ∀ (x y : Arg α) (base cont : List α), Arg.AddValues arith x y →
        x.values_ = base → x.store_func_ = StoreFunc.container cont →
        ∃ added, y.values_ = base ++ added ∧
          y.store_func_ = StoreFunc.container (cont ++ added) := by
      intro x y base cont hxy
      induction hxy generalizing base cont with
      | refl x =>
        intro hv hs
        exact ⟨[], by simp [hv], by simp [hs]⟩
      | step x x1 x2 value b hv _ ih =>
        intro hb hs
        rcases Arg.AddValue_container arith x x1 cont value b hs hv with
          ⟨_, e1, e2⟩ | ⟨_, val, _, e1, e2⟩
        · exact ih base cont (by rw [e1, hb]) e2
        · obtain ⟨added, i1, i2⟩ := ih (base ++ [val]) (cont ++ [val]) (by rw [e1, hb]) e2
          exact ⟨val :: added, by simp [i1], by simp [i2]⟩
    exact gen (a.StoreValues c) a' a.values_ c h rfl rfl
  · intro v a1 hv
    rcases Arg.AddValue_container arith (a.StoreValues c) a1 c v true rfl hv with
      ⟨hb, _, _⟩ | ⟨_, val, hc, e1, e2⟩
    · exact absurd hb (by simp)
    · exact ⟨val, hc, e1, e2⟩
  · intro v a1 hv
    rcases Arg.AddValue_container arith (a.StoreValues c) a1 c v false rfl hv with
      ⟨_, e1, e2⟩ | ⟨hb, _⟩
    · exact ⟨e1, e2⟩
    · exact absurd hb (by simp)

theorem store_values_mirrors_witness :
    ∃ added, mirrorEnd.values_ = mirrorStart.values_ ++ added ∧
      mirrorEnd.store_func_ = StoreFunc.container ([1] ++ added) :=
  (store_values_mirrors (some id) mirrorStart mirrorEnd [1]
    (Arg.AddValues.step _ _ _ "7".toList true rfl
      (Arg.AddValues.step _ _ _ "3".toList false rfl (Arg.AddValues.refl _)))).1

/-- C15 (amended): for a short-form token that contains `=` (a single `-`, one
or more characters without `=`, then `=` and a value `v`), the loop body
resolves the first character after the `-` as the short alias and passes `v`,
the text after the first `=`, to that spec's `AddValue`; if that first character
is not a registered alias, `Parse` returns false at this token. -/
theorem short_eq_resolves_first_char (p : ArgParser) (c : Char) (cs : List Char) (v : Str)
    (rest : List Str) (hc : c ≠ '-') (hne : '=' ∉ c :: cs) :
    (mapFind p.arg_names_ c = none →
      parseToken p ('-' :: c :: (cs ++ '=' :: v)) rest = Step.ret false p) ∧
    (∀ l a, mapFind p.arg_names_ c = some l → mapFind p.arguments_ l = some a →
      parseToken p ('-' :: c :: (cs ++ '=' :: v)) rest =
        match a.AddValue v with
        | none => Step.exit
        | some (false, a') => Step.ret false (p.setArg l a')
        | some (true, a') => Step.next (p.setArg l a') 0) ∧
    (mapFind p.arg_names_ c = none →
      ∀ prog, p.Parse (prog :: ('-' :: c :: (cs ++ '=' :: v)) :: rest) =
        Outcome.returned false p) := by
  have h1 : (c :: (cs ++ '=' :: v)).contains '=' = true := by simp
  have h2 : splitString (c :: (cs ++ '=' :: v)) '=' = (c :: cs, v) :=
    splitString_eq (c :: cs) v hne
  have h3 : parseToken p ('-' :: c :: (cs ++ '=' :: v)) rest =
      parseShortEq p (c :: (cs ++ '=' :: v)) := by
    simp only [parseToken, charAt, List.getD_cons_zero, List.getD_cons_succ, beq_self_eq_true,
      if_true, beq_iff_eq, hc, if_false, List.drop_succ_cons, List.drop_zero, h1]
  have h4 : mapFind p.arg_names_ c = none →
      parseToken p ('-' :: c :: (cs ++ '=' :: v)) rest = Step.ret false p := by
    intro hn
    rw [h3]
    simp only [parseShortEq, charAt, List.getD_cons_zero, hn]
  refine ⟨h4, ?_, ?_⟩
  · intro l a hn ha
    rw [h3]
    simp only [parseShortEq, charAt, List.getD_cons_zero, hn, ha, h2]
  · intro hn prog
    simp only [ArgParser.Parse, List.drop_succ_cons, List.drop_zero, parseLoop_zero, h4 hn]

theorem short_eq_resolves_first_char_witness :
    parseToken alphaBetaParser ('-' :: 'a' :: (['b'] ++ '=' :: ['5'])) [] =
      match (ArgBase.int (Arg.ctor 'a' "alpha".toList [] false false convertInt)).AddValue
        ['5'] with
      | none => Step.exit
      | some (false, a') => Step.ret false (alphaBetaParser.setArg "alpha".toList a')
      | some (true, a') => Step.next (alphaBetaParser.setArg "alpha".toList a') 0 :=
  (short_eq_resolves_first_char alphaBetaParser 'a' ['b'] ['5'] [] (by decide)
    (by decide)).2.1 "alpha".toList _ rfl rfl

/-- C15 as stated fails when more than one character precedes the `=`: with the
integer options `-a` / `--alpha` and `-b` / `--beta`, the token `-ab=5` has `b`
immediately before the `=`, but `Parse` stores 5 in `alpha` and nothing in
`beta`. -/
theorem short_eq_counterexample :
    (alphaBetaParser.Parse ["prog".toList, "-ab=5".toList]).stored "alpha".toList =
      some [Value.int 5] ∧
    (alphaBetaParser.Parse ["prog".toList, "-ab=5".toList]).stored "beta".toList =
      some [] := by
  decide

theorem mapFind_of_mem_nodup {κ β : Type} [DecidableEq κ] (m : List (κ × β)) (k : κ) (v : β)
    (hn : (m.map Prod.fst).Nodup) (h : (k, v) ∈ m) : mapFind m k = some v := by
  induction m with
  | nil => simp at h
  | cons e m ih =>
    obtain ⟨k', v'⟩ := e
    simp only [List.map_cons, List.nodup_cons] at hn
    obtain ⟨hn1, hn2⟩ := hn
    simp only [List.mem_cons, Prod.mk.injEq] at h
    rcases h with ⟨h1, h2⟩ | h
    · subst h1 h2
      simp [mapFind]
    · have hne : k' ≠ k := by
        intro hk
        subst hk
        exact hn1 (List.mem_map_of_mem Prod.fst h)
      simp only [mapFind, hne, if_false]
      exact ih hn2 h

theorem ArgParser.Evolves.wellFormed {p p' : ArgParser} (h : ArgParser.Evolves p p')
    (hw : p.WellFormed) : p'.WellFormed := by
  unfold ArgParser.WellFormed at hw ⊢
  rw [(ArgParser.Evolves.evolves_fields h).2.2.2]
  exact hw

theorem ArgParser.Evolves.lookup {p p' : ArgParser} (h : ArgParser.Evolves p p')
    (hw : p.WellFormed) (name : Str) (a : ArgBase)
    (ha : mapFind p.arguments_ name = some a) :
    ∃ a', mapFind p'.arguments_ name = some a' ∧ ArgBase.Adds a a' := by
  induction h generalizing a with
  | refl p => exact ⟨a, ha, ArgBase.Adds.refl a⟩
  | step p p' n b b' value r hm hv hrest ih =>
    have hb : mapFind p.arguments_ n = some b := mapFind_of_mem_nodup _ _ _ hw hm
    have hstep : ArgParser.Evolves p (p.setArg n b') :=
      ArgParser.Evolves.step p _ n b b' value r hm hv (ArgParser.Evolves.refl _)
    have hw1 := ArgParser.Evolves.wellFormed hstep hw
    by_cases hn : n = name
    · subst hn
      rw [hb] at ha
      simp only [Option.some.injEq] at ha
      subst ha
      obtain ⟨a', i1, i2⟩ := ih hw1 b' (ArgParser.find_setArg_self p n b')
      exact ⟨a', i1, (ArgBase.Adds.single hv).adds_trans i2⟩
    · exact ih hw1 a (by rw [ArgParser.find_setArg_ne p n name b' hn]; exact ha)

theorem takeValue_missing (a : ArgBase) (post : List Str)
    (hp : ∀ r ∈ post.head?, charAt r 0 = '-') : takeValue a post = some (false, a, 0) := by
  cases post with
  | nil => rfl
  | cons r rs =>
    have h := hp r (by simp)
    simp [takeValue, h]

/-- C11 (amended): for a registered spec that is neither a flag nor the help
trigger, with a long name `name` without `=`, in a registry with distinct keys:
when the token `--name` is the last token or is followed by a token that begins
with `-`, `Parse` behaves as the token loop does on the tokens `pre` before it:
if they are all consumed, `Parse` returns false with exactly the registry they
left (nothing is stored by this occurrence); if one of them already left `Parse`
(an error, or the help trigger, the only way to `true`), that verdict stands; if
one of them terminated the process in a conversion, `Parse` does not return.  In
particular `[prog, "--num", "-5"]` returns false for the integer spec `num`. -/
theorem missing_value_stops (p : ArgParser) (prog name : Str) (pre post : List Str)
    (a : ArgBase) (hw : p.WellFormed) (ha : mapFind p.arguments_ name = some a)
    (hf : a.isFlag = false) (hh : a.isHelp = false) (hn : '=' ∉ name)
    (hp : ∀ r ∈ post.head?, charAt r 0 = '-') :
    p.Parse (prog :: (pre ++ ('-' :: '-' :: name) :: post)) =
      (match parseLoop p 0 pre with
      | Step.next p' _ => Outcome.returned false p'
      | Step.ret b p' => Outcome.returned b p'
      | Step.exit => Outcome.exited) ∧
    (∀ p', p.Parse (prog :: (pre ++ ('-' :: '-' :: name) :: post)) = Outcome.returned true p' →
      p'.Help = true) ∧
    (numParser.Parse ["prog".toList, "--num".toList, "-5".toList]).verdict = some false ∧
    (numParser.Parse ["prog".toList, "--num".toList, "-5".toList]).stored "num".toList =
      some [] := by
  have key : p.Parse (prog :: (pre ++ ('-' :: '-' :: name) :: post)) =
      (match parseLoop p 0 pre with
      | Step.next p' _ => Outcome.returned false p'
      | Step.ret b p' => Outcome.returned b p'
      | Step.exit => Outcome.exited) := by
    unfold ArgParser.Parse
    simp only [List.drop_succ_cons, List.drop_zero]
    rw [parseLoop_append_dash p 0 pre post ('-' :: '-' :: name) (by simp [charAt])
      (Nat.zero_le _)]
    have hs := parseLoop_spec p 0 pre
    cases hl : parseLoop p 0 pre with
    | next p' n =>
      rw [hl] at hs
      obtain ⟨a', ha', hadds⟩ := ArgParser.Evolves.lookup hs hw name a ha
      have hfl := ArgBase.Adds.adds_fields hadds
      have hf' : a'.isFlag = false := by rw [hfl.2.1]; exact hf
      have hh' : a'.isHelp = false := by rw [hfl.2.2.1]; exact hh
      simp only [parseLoop_zero, parseToken_long, parseLong_value p' name post a' ha' hn hf' hh',
        takeValue_missing a' post hp, ArgParser.setArg_same p' name a' ha']
    | ret b p' => rfl
    | exit => rfl
  refine ⟨key, ?_, by decide, by decide⟩
  intro p' hp'
  rw [key] at hp'
  have hs := parseLoop_spec p 0 pre
  cases hl : parseLoop p 0 pre with
  | next q n => rw [hl] at hp'; simp at hp'
  | exit => rw [hl] at hp'; simp at hp'
  | ret b q =>
    rw [hl] at hp' hs
    simp only [Outcome.returned.injEq] at hp'
    obtain ⟨h1, h2⟩ := hp'
    subst h1 h2
    obtain ⟨p0, _, e0⟩ := hs
    rw [e0]
    rfl

theorem numParser_wellFormed : numParser.WellFormed := by
  unfold ArgParser.WellFormed
  decide

theorem missing_value_stops_witness :
    numParser.Parse ("prog".toList ::
        (["--num".toList, "5".toList] ++ "--num".toList :: ["-v".toList])) =
      Outcome.returned false numParserAfter :=
  (missing_value_stops numParser "prog".toList "num".toList ["--num".toList, "5".toList]
    ["-v".toList] (ArgBase.int (Arg.ctor 'n' "num".toList [] false false convertInt))
    numParser_wellFormed rfl rfl rfl (by decide) (by decide)).1

/-- C11 as stated fails: with the integer spec `num`, in `prog --num x --num`
the second `--num` is the last token and no token matches a help trigger, yet
`Parse` does not return false: the conversion of `x` terminates the process, so
`Parse` does not return at all. -/
theorem missing_value_counterexample :
    ¬ ∃ b p', numParser.Parse
        ["prog".toList, "--num".toList, "x".toList, "--num".toList] =
      Outcome.returned b p' := by
  rintro ⟨b, p', h⟩
  have e : numParser.Parse ["prog".toList, "--num".toList, "x".toList, "--num".toList] =
      Outcome.exited := rfl
  rw [e] at h
  exact Outcome.noConfusion h

theorem verboseParser_args :
    verboseParser.arguments_ =
      [("verbose".toList, ArgBase.bool (Arg.ctor 'v' "verbose".toList [] true false convertTrue)),
       ("file".toList,
        ArgBase.string (Arg.ctor ' ' "file".toList [] false false convertString).Positional)] :=
  rfl

theorem verboseParser_one_positional :
    ∀ e ∈ verboseParser.arguments_, e.2.isPositional = true →
      e = ("file".toList,
        ArgBase.string (Arg.ctor ' ' "file".toList [] false false convertString).Positional) := by
  intro e he hp
  rw [verboseParser_args] at he
  simp only [List.mem_cons, List.mem_singleton, List.not_mem_nil, or_false] at he
  rcases he with rfl | rfl
  · exact absurd hp (by decide)
  · rfl

theorem StepFrame.of_eq (p q : ArgParser) (name : Str) (s : Step)
    (h : mapFind q.arguments_ name = mapFind p.arguments_ name) (hs : StepFrame q name s) :
    StepFrame p name s := by
  cases s with
  | next p' n => exact hs.trans h
  | ret b p' => exact hs.trans h
  | exit => trivial

theorem parseLong_frame (p : ArgParser) (name arg_name : Str) (rest : List Str)
    (h : (if arg_name.contains '=' then (splitString arg_name '=').1 else arg_name) ≠ name) :
    StepFrame p name (parseLong p arg_name rest) := by
  unfold parseLong
  split
  · rename_i hc
    rw [if_pos hc] at h
    cases hf : mapFind p.arguments_ (splitString arg_name '=').1 with
    | none => exact rfl
    | some a =>
      simp only
      cases hv : a.AddValue (splitString arg_name '=').2 with
      | none => trivial
      | some r =>
        obtain ⟨b, a'⟩ := r
        cases b
        · exact ArgParser.find_setArg_ne p _ name a' h
        · exact ArgParser.find_setArg_ne p _ name a' h
  · rename_i hc
    rw [if_neg hc] at h
    cases hf : mapFind p.arguments_ arg_name with
    | none => exact rfl
    | some a =>
      simp only
      split
      · cases hv : a.AddValue "true".toList with
        | none => trivial
        | some r =>
          obtain ⟨b, a'⟩ := r
          exact ArgParser.find_setArg_ne p _ name a' h
      · split
        · exact rfl
        · cases hv : takeValue a rest with
          | none => trivial
          | some r =>
            obtain ⟨b, a', n⟩ := r
            cases b
            · exact ArgParser.find_setArg_ne p _ name a' h
            · exact ArgParser.find_setArg_ne p _ name a' h

theorem parseShortEq_frame (p : ArgParser) (name arg_name : Str)
    (h : mapFind p.arg_names_ (charAt arg_name 0) ≠ some name) :
    StepFrame p name (parseShortEq p arg_name) := by
  unfold parseShortEq
  cases hn : mapFind p.arg_names_ (charAt arg_name 0) with
  | none => exact rfl
  | some long_name =>
    have hne : long_name ≠ name := by
      intro e
      rw [hn, e] at h
      exact h rfl
    simp only
    cases hf : mapFind p.arguments_ long_name with
    | none => trivial
    | some a =>
      simp only
      cases hv : a.AddValue (splitString arg_name '=').2 with
      | none => trivial
      | some r =>
        obtain ⟨b, a'⟩ := r
        cases b
        · exact ArgParser.find_setArg_ne p _ name a' hne
        · exact ArgParser.find_setArg_ne p _ name a' hne

theorem shortChain_frame (p : ArgParser) (name : Str) (cs : List Char) (rest : List Str)
    (k : Nat) (h : ∀ c ∈ cs, mapFind p.arg_names_ c ≠ some name) :
    StepFrame p name (shortChain p cs rest k) := by
  induction cs generalizing p rest k with
  | nil => exact rfl
  | cons c cs ih =>
    unfold shortChain
    have hc := h c (List.mem_cons_self _ _)
    have hcs : ∀ c ∈ cs, mapFind p.arg_names_ c ≠ some name :=
      fun c hc => h c (List.mem_cons_of_mem _ hc)
    cases hn : mapFind p.arg_names_ c with
    | none => exact rfl
    | some long_name =>
      have hne : long_name ≠ name := by
        intro e
        rw [hn, e] at hc
        exact hc rfl
      simp only
      cases hf : mapFind p.arguments_ long_name with
      | none => trivial
      | some a =>
        simp only
        split
        · cases hv : a.AddValue "true".toList with
          | none => trivial
          | some r =>
            obtain ⟨b, a'⟩ := r
            simp only
            exact StepFrame.of_eq p _ name _ (ArgParser.find_setArg_ne p _ name a' hne)
              (ih (p.setArg long_name a') rest k hcs)
        · split
          · exact rfl
          · cases hv : takeValue a rest with
            | none => trivial
            | some r =>
              obtain ⟨b, a', n⟩ := r
              cases b
              · exact ArgParser.find_setArg_ne p _ name a' hne
              · simp only
                exact StepFrame.of_eq p _ name _ (ArgParser.find_setArg_ne p _ name a' hne)
                  (ih (p.setArg long_name a') (rest.drop n) (k + n) hcs)

theorem parsePositional_frame (p : ArgParser) (name arg : Str) (rest : List Str)
    (h : ∀ e ∈ p.arguments_, e.2.isPositional = true → e.1 ≠ name) :
    StepFrame p name (parsePositional p arg rest) := by
  unfold parsePositional
  cases hf : firstPositional p.arguments_ with
  | none => exact rfl
  | some e =>
    obtain ⟨n, a⟩ := e
    have hm := firstPositional_mem _ _ _ hf
    have hne : n ≠ name := h (n, a) hm.1 hm.2
    simp only
    cases hv : a.AddValue arg with
    | none => trivial
    | some r =>
      obtain ⟨b, a1⟩ := r
      simp only
      cases hl : multiLoopIgnore a1 rest with
      | none => trivial
      | some r2 =>
        obtain ⟨a2, k⟩ := r2
        exact ArgParser.find_setArg_ne p _ name a2 hne

theorem parseToken_frame (p : ArgParser) (name arg : Str) (rest : List Str)
    (h : TokenAvoids p name arg) : StepFrame p name (parseToken p arg rest) := by
  unfold TokenAvoids at h
  unfold parseToken
  by_cases h0 : charAt arg 0 = '-'
  · rw [if_pos h0] at h
    simp only [beq_iff_eq, h0, if_true]
    by_cases h1 : charAt arg 1 = '-'
    · rw [if_pos h1] at h
      simp only [h1, if_true]
      exact parseLong_frame p name _ rest h
    · rw [if_neg h1] at h
      simp only [h1, if_false]
      by_cases h2 : (arg.drop 1).contains '=' = true
      · rw [if_pos h2] at h
        simp only [h2, if_true]
        exact parseShortEq_frame p name _ h
      · rw [if_neg h2] at h
        simp only [h2, Bool.false_eq_true, if_false]
        exact shortChain_frame p name _ rest 0 h
  · rw [if_neg h0] at h
    simp only [beq_iff_eq, h0, if_false]
    exact parsePositional_frame p name arg rest h

theorem mem_mapAssign_eq {κ β : Type} [DecidableEq κ] (m : List (κ × β)) (k : κ) (v : β)
    (e : κ × β) (he : e ∈ mapAssign m k v) : e ∈ m ∨ e = (k, v) := by
  induction m with
  | nil =>
    simp only [mapAssign, List.mem_singleton] at he
    exact Or.inr he
  | cons e0 m ih =>
    obtain ⟨k', v'⟩ := e0
    by_cases hk : k' = k
    · subst hk
      simp only [mapAssign, if_true, List.mem_cons] at he
      rcases he with he | he
      · exact Or.inr he
      · exact Or.inl (List.mem_cons_of_mem _ he)
    · simp only [mapAssign, hk, if_false, List.mem_cons] at he
      rcases he with he | he
      · exact Or.inl (by simp [he])
      · rcases ih he with h | h
        · exact Or.inl (List.mem_cons_of_mem _ h)
        · exact Or.inr h

theorem TokenAvoids.stable (p p' : ArgParser) (name arg : Str)
    (he : ArgParser.Evolves p p') (h : TokenAvoids p name arg) : TokenAvoids p' name arg := by
  have hpos : ∀ (q q' : ArgParser), ArgParser.Evolves q q' →
      (∀ e ∈ q.arguments_, e.2.isPositional = true → e.1 ≠ name) →
      ∀ e ∈ q'.arguments_, e.2.isPositional = true → e.1 ≠ name := by
    intro q q' hq
    induction hq with
    | refl q => exact fun h => h
    | step q q' n b b' value r hm hv _ ih =>
      intro hq
      apply ih
      intro e hmem hp
      rcases mem_mapAssign_eq _ _ _ e hmem with h1 | h1
      · exact hq e h1 hp
      · subst h1
        have hb : b.isPositional = true := by
          rw [← (ArgBase.AddValue_fields b b' value r hv).2.2.2.1]
          exact hp
        exact hq (n, b) hm hb
  unfold TokenAvoids at h ⊢
  rw [(ArgParser.Evolves.evolves_fields he).2.1]
  by_cases h0 : charAt arg 0 = '-'
  · rw [if_pos h0] at h ⊢
    exact h
  · rw [if_neg h0] at h ⊢
    exact hpos p p' he h

theorem parseLoop_frame (p : ArgParser) (name : Str) (k : Nat) (tokens : List Str)
    (h : ∀ tok ∈ tokens, TokenAvoids p name tok) : StepFrame p name (parseLoop p k tokens) := by
  induction tokens generalizing p k with
  | nil =>
    rw [parseLoop_nil]
    exact rfl
  | cons arg rest ih =>
    have hrest : ∀ tok ∈ rest, TokenAvoids p name tok :=
      fun tok ht => h tok (List.mem_cons_of_mem _ ht)
    cases k with
    | succ k =>
      rw [parseLoop_skip]
      exact ih p k hrest
    | zero =>
      rw [parseLoop_zero]
      have hf := parseToken_frame p name arg rest (h arg (List.mem_cons_self _ _))
      have hs := (parseToken_spec p arg rest).1
      cases ht : parseToken p arg rest with
      | next p' n =>
        rw [ht] at hf hs
        exact StepFrame.of_eq p p' name _ hf
          (ih p' n (fun tok hm => TokenAvoids.stable p p' name tok hs (hrest tok hm)))
      | ret b p' =>
        rw [ht] at hf
        exact hf
      | exit => trivial

/-- C18: for a boolean spec registered under `name` whose stored sequence is
empty (a flag declared with `AddFlag` and no `Default`) and a token sequence none
of whose tokens resolves to it: after `Parse` returns, the stored sequence of
the flag is still empty and `GetFlag(name)` at index 0 takes the fatal exit path
of `GetValue` instead of returning false.  On every registry, `GetFlag` at index
0 returns a value for a boolean spec exactly when its stored sequence is not
empty.  In particular, with the flag `verbose` and the positional spec `file`,
`Parse` of `[prog, "f"]` succeeds and `GetFlag("verbose")` exits, while after
`[prog, "-v", "f"]` it returns true. -/
theorem absent_flag_read_is_fatal (p p' : ArgParser) (argv : List Str) (b : Bool)
    (name : Str) (x : Arg Bool) (hx : mapFind p.arguments_ name = some (ArgBase.bool x))
    (hv : x.values_ = []) (havoid : ∀ tok ∈ argv.drop 1, TokenAvoids p name tok)
    (hparse : p.Parse argv = Outcome.returned b p') :
    p'.stored name = some [] ∧ p'.GetFlag name 0 = none ∧
    (∀ (q : ArgParser) (y : Arg Bool), mapFind q.arguments_ name = some (ArgBase.bool y) →
      (q.GetFlag name 0 = none ↔ y.values_ = [])) ∧
    (verboseParser.Parse ["prog".toList, "f".toList]).verdict = some true ∧
    (verboseParser.Parse ["prog".toList, "f".toList]).getFlag "verbose".toList 0 = none ∧
    (verboseParser.Parse ["prog".toList, "-v".toList, "f".toList]).getFlag "verbose".toList 0 =
      some true := by
  have hfr := parseLoop_frame p name 0 (argv.drop 1) havoid
  have hfind : mapFind p'.arguments_ name = some (ArgBase.bool x) := by
    unfold ArgParser.Parse at hparse
    cases hl : parseLoop p 0 (argv.drop 1) with
    | exit => rw [hl] at hparse; simp at hparse
    | ret b2 q =>
      rw [hl] at hparse hfr
      simp only [Outcome.returned.injEq] at hparse
      rw [← hparse.2, ← hx]
      exact hfr
    | next q n =>
      rw [hl] at hparse hfr
      simp only [Outcome.returned.injEq] at hparse
      rw [← hparse.2, ← hx]
      exact hfr
  refine ⟨?_, ?_, ?_, by decide, by decide, by decide⟩
  · simp [ArgParser.stored, hfind, ArgBase.values, hv]
  · simp [ArgParser.GetFlag, hfind, Arg.GetValue, hv]
  · intro q y hy
    simp only [ArgParser.GetFlag, hy, Arg.GetValue, le_refl, if_true, Int.toNat_zero]
    cases y.values_ <;> simp

theorem verboseParser_avoids :
    ∀ tok ∈ ["prog".toList, "f".toList].drop 1,
      TokenAvoids verboseParser "verbose".toList tok := by
  intro tok ht
  simp only [List.drop_succ_cons, List.drop_zero, List.mem_singleton] at ht
  subst ht
  unfold TokenAvoids
  rw [if_neg (by decide)]
  intro e he hp
  rw [verboseParser_one_positional e he hp]
  decide

theorem absent_flag_read_is_fatal_witness :
    verboseParser.Parse ["prog".toList, "f".toList] =
      Outcome.returned true verboseParserAfter ∧
    verboseParserAfter.stored "verbose".toList = some [] ∧
    verboseParserAfter.GetFlag "verbose".toList 0 = none :=
  ⟨rfl,
   (absent_flag_read_is_fatal verboseParser verboseParserAfter ["prog".toList, "f".toList] true
      "verbose".toList (Arg.ctor 'v' "verbose".toList [] true false convertTrue) rfl rfl
      verboseParser_avoids rfl).1,
   (absent_flag_read_is_fatal verboseParser verboseParserAfter ["prog".toList, "f".toList] true
      "verbose".toList (Arg.ctor 'v' "verbose".toList [] true false convertTrue) rfl rfl
      verboseParser_avoids rfl).2.1⟩

end ArgumentParser
